import Mathlib

/-!
Verification of the trie-walker core and the Optimism genesis conversion of
this repository.

The trie walker, prefix set, trie cursor and their supporting types live in
the repository's trie crates, whose implementation files are not part of the
visible sources; only their tests (crates/trie/db/tests/walker.rs) are.
Following the specification, those components are modelled here from the
spec's component design (sections 3 and 4), with every concrete behaviour
pinned by the visible tests.  The Optimism genesis code
(crates/node-core/src/args/optimism_genesis.rs) is embedded directly from the
source.
-/

namespace RethTrie

/-- A nibble path: a sequence of 4-bit digits identifying a trie position
(spec section 3, "Nibble Path"). -/
abbrev Nibbles := List Nat

/-- Modelled from the spec: lexicographic nibble-by-nibble comparison of
nibble paths, the order that defines trie traversal (spec section 3).
A strict prefix is smaller than any of its extensions. -/
def nlt : Nibbles → Nibbles → Bool
  | _, [] => false
  | [], _ :: _ => true
  | a :: as, b :: bs => if a < b then true else if b < a then false else nlt as bs

/-- Non-strict lexicographic comparison, defined as the negation of the
reversed strict comparison. -/
def nle (a b : Nibbles) : Bool := !(nlt b a)

theorem nlt_irrefl (a : Nibbles) : nlt a a = false := by
  induction a with
  | nil => rfl
  | cons x xs ih => simp [nlt, ih]

theorem nlt_trans : ∀ {a b c : Nibbles}, nlt a b = true → nlt b c = true → nlt a c = true := by
  intro a
  induction a with
  | nil =>
    intro b c hab hbc
    cases b with
    | nil => exact absurd hab (by simp [nlt])
    | cons y ys =>
      cases c with
      | nil => exact absurd hbc (by simp [nlt])
      | cons z zs => simp [nlt]
  | cons x xs ih =>
    intro b c hab hbc
    cases b with
    | nil => exact absurd hab (by simp [nlt])
    | cons y ys =>
      cases c with
      | nil => exact absurd hbc (by simp [nlt])
      | cons z zs =>
        simp only [nlt] at hab hbc ⊢
        by_cases hxy : x < y
        · by_cases hyz : y < z
          · simp [Nat.lt_trans hxy hyz]
          · simp only [if_pos hxy] at hab
            by_cases hzy : z < y
            · simp [hyz, hzy] at hbc
            · have : y = z := Nat.le_antisymm (Nat.le_of_not_lt hzy) (Nat.le_of_not_lt hyz)
              subst this
              simp [hxy]
        · by_cases hyx : y < x
          · simp [hxy, hyx] at hab
          · have hxyeq : x = y := Nat.le_antisymm (Nat.le_of_not_lt hyx) (Nat.le_of_not_lt hxy)
            subst hxyeq
            simp only [if_neg hxy, Nat.lt_irrefl, if_neg (Nat.lt_irrefl x)] at hab
            by_cases hyz : x < z
            · simp [hyz]
            · by_cases hzy : z < x
              · simp [hyz, hzy] at hbc
              · have : x = z := Nat.le_antisymm (Nat.le_of_not_lt hzy) (Nat.le_of_not_lt hyz)
                subst this
                simp only [if_neg (Nat.lt_irrefl x)] at hbc ⊢
                exact ih hab hbc

theorem nlt_asymm {a b : Nibbles} (h : nlt a b = true) : nlt b a = false := by
  by_contra hc
  have hba : nlt b a = true := by
    cases hx : nlt b a with
    | false => exact absurd hx hc
    | true => rfl
  have := nlt_trans h hba
  rw [nlt_irrefl] at this
  exact Bool.false_ne_true this

theorem nlt_total : ∀ {a b : Nibbles}, nlt a b = false → nlt b a = false → a = b := by
  intro a
  induction a with
  | nil =>
    intro b h₁ _
    cases b with
    | nil => rfl
    | cons y ys => simp [nlt] at h₁
  | cons x xs ih =>
    intro b h₁ h₂
    cases b with
    | nil => simp [nlt] at h₂
    | cons y ys =>
      simp only [nlt] at h₁ h₂
      by_cases hxy : x < y
      · simp [hxy] at h₁
      · by_cases hyx : y < x
        · simp [hyx, hxy] at h₂
        · have hx : x = y := Nat.le_antisymm (Nat.le_of_not_lt hyx) (Nat.le_of_not_lt hxy)
          subst hx
          simp only [if_neg (Nat.lt_irrefl x)] at h₁ h₂
          rw [ih h₁ h₂]

theorem nle_iff {a b : Nibbles} : nle a b = true ↔ nlt a b = true ∨ a = b := by
  constructor
  · intro h
    simp only [nle, Bool.not_eq_true'] at h
    cases hab : nlt a b with
    | true => exact Or.inl rfl
    | false => exact Or.inr (nlt_total hab h)
  · intro h
    cases h with
    | inl h => simp [nle, nlt_asymm h]
    | inr h => subst h; simp [nle, nlt_irrefl]

/-- A path is strictly smaller than any proper extension of itself. -/
theorem nlt_append_cons (p : Nibbles) (c : Nat) (t : Nibbles) :
    nlt p (p ++ c :: t) = true := by
  induction p with
  | nil => simp [nlt]
  | cons x xs ih => simp [nlt, ih]

/-- A prefix is less than or equal to any of its extensions. -/
theorem nle_of_pref {p k : Nibbles} (h : p <+: k) : nle p k = true := by
  obtain ⟨t, rfl⟩ := h
  cases t with
  | nil => simp [nle_iff]
  | cons c t => exact nle_iff.mpr (Or.inl (nlt_append_cons p c t))

/-- Paths sharing a common prefix compare by the first differing nibble. -/
theorem nlt_append_lt (p : Nibbles) {i j : Nat} (hij : i < j) (t₁ t₂ : Nibbles) :
    nlt (p ++ i :: t₁) (p ++ j :: t₂) = true := by
  induction p with
  | nil => simp [nlt, hij]
  | cons x xs ih => simp [nlt, ih]

/-- Every extension of a given position is below that position's successor
sibling. -/
theorem nlt_ext_succ {p : Nibbles} {n : Nat} {q : Nibbles} (h : (p ++ [n]) <+: q) :
    nlt q (p ++ [n + 1]) = true := by
  obtain ⟨t, rfl⟩ := h
  have : p ++ [n] ++ t = p ++ n :: t := by simp
  rw [this]
  exact nlt_append_lt p (Nat.lt_succ_self n) t []

/-- If k is at least p but does not extend p, then k is above every extension
of p: once traversal leaves the subtree under p, it never re-enters it. -/
theorem nlt_of_ge_not_pref :
    ∀ {p k : Nibbles}, nle p k = true → ¬(p <+: k) → ∀ {q : Nibbles}, p <+: q →
      nlt q k = true := by
  intro p
  induction p with
  | nil => intro k _ hnp; exact absurd List.nil_prefix hnp
  | cons a p' ih =>
    intro k hle hnp q hpq
    cases k with
    | nil =>
      exfalso
      simp [nle, nlt] at hle
    | cons b k' =>
      obtain ⟨t, rfl⟩ := hpq
      by_cases hab : a < b
      · simp [nlt, hab]
      · by_cases hba : b < a
        · exfalso
          simp only [nle, nlt, if_pos hba, Bool.not_true] at hle
          exact Bool.false_ne_true hle
        · have : a = b := Nat.le_antisymm (Nat.le_of_not_lt hba) (Nat.le_of_not_lt hab)
          subst this
          have hle' : nle p' k' = true := by
            simp only [nle, nlt, if_neg (Nat.lt_irrefl a)] at hle ⊢
            exact hle
          have hnp' : ¬(p' <+: k') := by
            intro hc
            obtain ⟨t2, ht2⟩ := hc
            exact hnp ⟨t2, by simp [ht2]⟩
          have := ih hle' hnp' (q := p' ++ t) ⟨t, rfl⟩
          simp only [List.cons_append, nlt, if_neg (Nat.lt_irrefl a)]
          exact this

/-- A path lying between a prefix and one of its extensions itself extends
that prefix. -/
theorem prefix_of_between {p k e : Nibbles} (h₁ : nle p k = true) (h₂ : nle k e = true)
    (h₃ : p <+: e) : p <+: k := by
  by_contra hnp
  have h := nlt_of_ge_not_pref h₁ hnp h₃
  simp [nle, h] at h₂

/-- Modelled from the spec: compact persisted representation of an internal
trie node (spec section 3, "Branch Node"): bitmasks over the 16 children for
existence, persisted-subtree and cached-hash availability, the cached hashes,
and an optional overall node hash.  Hash digests are abstracted as naturals;
the implementing trie crate is not among the visible sources. -/
structure BranchNodeCompact where
  state_mask : Nat
  tree_mask : Nat
  hash_mask : Nat
  hashes : List Nat
  root_hash : Option Nat
deriving Repr, DecidableEq

/-- Modelled from the spec: a frozen Prefix Set (spec section 3), the sorted
index of nibble paths whose value changed since the last commit. -/
structure PrefixSet where
  keys : List Nibbles
deriving Repr, DecidableEq

/-- Modelled from the spec: the query "has any changed path with prefix p"
(spec section 3, "Prefix Set"). -/
def PrefixSet.contains (ps : PrefixSet) (p : Nibbles) : Bool :=
  ps.keys.any (fun k => p.isPrefixOf k)

/-- The merged (persisted plus in-memory overlay) view of the branch-node
table, after tombstones are applied: a list of (path, node) pairs sorted
strictly ascending in lexicographic path order (spec sections 4.1 and 6). -/
abbrev TrieDb := List (Nibbles × BranchNodeCompact)

/-- Modelled from the spec: Trie Cursor seek_exact - the node stored at
exactly the given path, if present (spec section 4.1). -/
def seekExact (db : TrieDb) (key : Nibbles) : Option (Nibbles × BranchNodeCompact) :=
  db.find? (fun e => e.1 == key)

/-- Modelled from the spec: Trie Cursor seek - the first entry whose path is
greater than or equal to the given path (spec section 4.1). -/
def seek (db : TrieDb) (key : Nibbles) : Option (Nibbles × BranchNodeCompact) :=
  db.find? (fun e => nle key e.1)

/-- Modelled from the spec: one frame of the walker's traversal stack (spec
section 3, "Walker Cursor State"): the current sibling position at one trie
depth.  nibble = -1 means the walker stands at the node itself; a value in
0..15 means it stands at that child position. -/
structure CursorSubNode where
  key : Nibbles
  node : Option BranchNodeCompact
  nibble : Int
deriving Repr, DecidableEq

/-- The nibble path of the position a stack frame denotes. -/
def CursorSubNode.fullKey (s : CursorSubNode) : Nibbles :=
  if s.nibble < 0 then s.key else s.key ++ [s.nibble.toNat]

/-- Whether the child at the frame's position exists (state mask). -/
def CursorSubNode.stateFlag (s : CursorSubNode) : Bool :=
  match s.node with
  | some n => if 0 ≤ s.nibble then n.state_mask.testBit s.nibble.toNat else true
  | none => true

/-- Whether the child at the frame's position is itself a persisted branch
node (tree mask). -/
def CursorSubNode.treeFlag (s : CursorSubNode) : Bool :=
  match s.node with
  | some n => if 0 ≤ s.nibble then n.tree_mask.testBit s.nibble.toNat else true
  | none => true

/-- Whether a cached hash covers the frame's position: the node's hash bit at
a child position, the overall root hash at the node itself. -/
def CursorSubNode.hashFlag (s : CursorSubNode) : Bool :=
  match s.node with
  | some n => if 0 ≤ s.nibble then n.hash_mask.testBit s.nibble.toNat else n.root_hash.isSome
  | none => false

/-- First nibble in [start, 16) whose bit is set in the mask. -/
def findStateBit (mask : Nat) (start : Nat) : Option Nat :=
  (List.range' start (16 - start)).find? (fun i => mask.testBit i)

/-- Modelled from the spec: create a stack frame positioned on a
just-consumed node.  A node carrying an overall root hash is entered at the
node itself (so the cached hash can cover the whole subtree, spec section
4.2); any other node is entered at its first existing child.  Stored nodes
always have a nonempty state mask (spec section 3 invariant), so the fallback
-1 for an empty mask is never reached on well-formed data. -/
def CursorSubNode.make (key : Nibbles) (node : Option BranchNodeCompact) : CursorSubNode :=
  let nibble : Int :=
    match node with
    | some n =>
      if n.root_hash.isNone then
        match findStateBit n.state_mask 0 with
        | some i => (i : Int)
        | none => -1
      else -1
    | none => -1
  ⟨key, node, nibble⟩

/-- Modelled from the spec: the Trie Walker's resumable state (spec section
4.2): the traversal stack (list head = deepest frame) and the skip decision
for the current position. -/
structure TrieWalker where
  stack : List CursorSubNode
  can_skip_current_node : Bool
deriving Repr, DecidableEq

/-- The walker's current position: the path of the deepest stack frame, or
none once the walk has terminated. -/
def TrieWalker.key (w : TrieWalker) : Option Nibbles :=
  w.stack.head?.map CursorSubNode.fullKey

/-- Overwrite the bottom (root) frame's nibble, resynchronising the stack
with the trie structure after the cursor jumped to a new top-level subtree. -/
def setBottomNibble (c : Nat) : List CursorSubNode → List CursorSubNode
  | [] => []
  | [f] => [{ f with nibble := (c : Int) }]
  | f :: g :: rest => f :: setBottomNibble c (g :: rest)

/-- Modelled from the spec (section 4.2): consume the next node - seek the
cursor to the first stored node at or after the current position and push a
frame for it; an empty seek result means the trie is exhausted and ends the
walk (clears the stack). -/
def consumeStack (db : TrieDb) (stack : List CursorSubNode) : List CursorSubNode :=
  match stack with
  | [] => []
  | t :: rest =>
    match seek db t.fullKey with
    | none => []
    | some (k, n) =>
      let stack1 :=
        match k with
        | [] => t :: rest
        | c :: _ => setBottomNibble c (t :: rest)
      CursorSubNode.make k (some n) :: stack1

/-- Modelled from the spec (section 4.2, "Backtracking"): move to the next
sibling position with state at the current depth, cascading pops through
exhausted levels; the flag permits stepping from a node-level position down
to the node's child positions. -/
def moveToNextSiblingStack (db : TrieDb) : List CursorSubNode → Bool → List CursorSubNode
  | [], _ => []
  | t :: rest, allowRootToChild =>
    if 15 ≤ t.nibble ∨ (t.nibble < 0 ∧ allowRootToChild = false) then
      moveToNextSiblingStack db rest false
    else
      let t1 : CursorSubNode := { t with nibble := t.nibble + 1 }
      match t.node with
      | none => consumeStack db (t1 :: rest)
      | some n =>
        match findStateBit n.state_mask t1.nibble.toNat with
        | some i => { t with nibble := (i : Int) } :: rest
        | none => moveToNextSiblingStack db rest false

/-- Modelled from the spec: recompute the skip decision (spec section 4.2,
"Decision rule"): the current position is skippable iff a cached hash covers
it and the Prefix Set reports no changed key with the position as prefix. -/
def updateSkip (ps : PrefixSet) (stack : List CursorSubNode) : TrieWalker :=
  { stack := stack
    can_skip_current_node :=
      match stack.head? with
      | some t => !ps.contains t.fullKey && t.hashFlag
      | none => false }

/-- Modelled from the spec: one advance() step of the Trie Walker (spec
section 4.2): if the current position cannot be skipped and its subtree is
persisted, descend (from a node-level position to its children, from a child
position by consuming the child node); otherwise move past the whole subtree
to the next sibling; then recompute the skip decision. -/
def TrieWalker.advance (db : TrieDb) (ps : PrefixSet) (w : TrieWalker) : TrieWalker :=
  match w.stack with
  | [] => w
  | t :: _ =>
    let stack' :=
      if w.can_skip_current_node = false ∧ t.treeFlag = true then
        if t.nibble < 0 then moveToNextSiblingStack db w.stack true
        else consumeStack db w.stack
      else moveToNextSiblingStack db w.stack false
    updateSkip ps stack'

/-- Modelled from the spec: constructing a walker positions it at the empty
path, on the root node if one is stored there (spec section 4.2, "Root
handling"). -/
def TrieWalker.new (db : TrieDb) (ps : PrefixSet) : TrieWalker :=
  match seekExact db [] with
  | some (k, n) => updateSkip ps [CursorSubNode.make k (some n)]
  | none => { stack := [⟨[], none, -1⟩], can_skip_current_node := false }

/-- The nibble paths yielded by up to the given number of successive
advance() calls, stopping at the first exhausted step. -/
def walkKeys (db : TrieDb) (ps : PrefixSet) : Nat → TrieWalker → List Nibbles
  | 0, _ => []
  | fuel + 1, w =>
    let w' := w.advance db ps
    match w'.key with
    | none => []
    | some k => k :: walkKeys db ps fuel w'

/-- The walker state after the given number of advance() calls. -/
def advanceN (db : TrieDb) (ps : PrefixSet) : Nat → TrieWalker → TrieWalker
  | 0, w => w
  | fuel + 1, w => advanceN db ps fuel (w.advance db ps)

/-- The stored branch nodes of the walk_nodes_with_common_prefix test
(crates/trie/db/tests/walker.rs, lines 30-34). -/
def commonPrefixDb : TrieDb :=
  [([0x5], ⟨0b100000101, 0b100000100, 0, [], none⟩),
   ([0x5, 0x2, 0xC], ⟨0b10000111, 0, 0, [], none⟩),
   ([0x5, 0x8], ⟨0b0110, 0b0100, 0, [], none⟩)]

/-- The empty prefix set (Default::default() of the tests). -/
def emptyPrefixSet : PrefixSet := ⟨[]⟩

/-- The stored branch nodes of the cursor_rootnode_with_changesets test
(crates/trie/db/tests/walker.rs, lines 96-119): a root branch with children
at nibbles 2 and 4 carrying a root hash, and a child branch at path [2] with
a cached hash for its child 1. -/
def rootNodeDb : TrieDb :=
  [([], ⟨0b10100, 0b00100, 0, [], some 7⟩),
   ([0x2], ⟨0b00010, 0, 0b00010, [5], none⟩)]

/-- The empty path is a prefix of every changed key, so the root is reported
as containing changes exactly when the prefix set is nonempty. -/
theorem contains_nil_iff (ps : PrefixSet) : ps.contains [] = true ↔ ps.keys ≠ [] := by
  cases h : ps.keys with
  | nil => simp [PrefixSet.contains, h]
  | cons x xs => simp [PrefixSet.contains, h, List.isPrefixOf]

theorem nle_refl (a : Nibbles) : nle a a = true := by
  simp [nle, nlt_irrefl]

theorem nlt_of_nlt_of_nle {a b c : Nibbles} (h₁ : nlt a b = true) (h₂ : nle b c = true) :
    nlt a c = true := by
  rcases nle_iff.mp h₂ with h | rfl
  · exact nlt_trans h₁ h
  · exact h₁

theorem nlt_of_nle_of_nlt {a b c : Nibbles} (h₁ : nle a b = true) (h₂ : nlt b c = true) :
    nlt a c = true := by
  rcases nle_iff.mp h₁ with h | rfl
  · exact nlt_trans h h₂
  · exact h₂

theorem nle_trans {a b c : Nibbles} (h₁ : nle a b = true) (h₂ : nle b c = true) :
    nle a c = true := by
  rcases nle_iff.mp h₁ with h | rfl
  · exact nle_iff.mpr (Or.inl (nlt_of_nlt_of_nle h h₂))
  · exact h₂

theorem ne_nil_of_nle {p k : Nibbles} (hle : nle p k = true) (hp : p ≠ []) : k ≠ [] := by
  intro hk
  subst hk
  cases p with
  | nil => exact hp rfl
  | cons a p' => simp [nle, nlt] at hle

theorem head_of_singleton_prefix {m : Nat} {k : Nibbles} (h : [m] <+: k) :
    ∃ t, k = m :: t := by
  obtain ⟨t, rfl⟩ := h
  exact ⟨t, rfl⟩

theorem seek_le {db : TrieDb} {key k : Nibbles} {n : BranchNodeCompact}
    (h : seek db key = some (k, n)) : nle key k = true := by
  have := List.find?_some h
  simpa using this

theorem seek_mem {db : TrieDb} {key k : Nibbles} {n : BranchNodeCompact}
    (h : seek db key = some (k, n)) : (k, n) ∈ db :=
  List.mem_of_find?_eq_some h

theorem seekExact_eq {db : TrieDb} {key k : Nibbles} {n : BranchNodeCompact}
    (h : seekExact db key = some (k, n)) : k = key := by
  have := List.find?_some h
  simpa using this

theorem seekExact_mem {db : TrieDb} {key k : Nibbles} {n : BranchNodeCompact}
    (h : seekExact db key = some (k, n)) : (k, n) ∈ db :=
  List.mem_of_find?_eq_some h

/-- Strict ascending sortedness of the merged branch-node table (spec
sections 3 and 4.1). -/
def DbSorted (db : TrieDb) : Prop :=
  List.Pairwise (fun a b => nlt a.1 b.1 = true) db

/-- seek returns the least entry at or after the sought path. -/
theorem seek_min {db : TrieDb} (hs : DbSorted db) :
    ∀ {key k : Nibbles} {n : BranchNodeCompact}, seek db key = some (k, n) →
      ∀ {k2 : Nibbles} {n2 : BranchNodeCompact}, (k2, n2) ∈ db → nle key k2 = true →
        nle k k2 = true := by
  induction db with
  | nil => intro key k n h; simp [seek] at h
  | cons e rest ih =>
    intro key k n h k2 n2 hmem hle
    rcases List.pairwise_cons.mp hs with ⟨hhead, htail⟩
    by_cases hpe : nle key e.1 = true
    · have he : (k, n) = e := by
        have : List.find? (fun x => nle key x.1) (e :: rest) = some e :=
          List.find?_cons_of_pos _ (by simpa using hpe)
        rw [seek, this] at h
        exact (Option.some_inj.mp h).symm
      have hk : k = e.1 := congrArg Prod.fst he
      rcases List.mem_cons.mp hmem with h2 | h2
      · have hk2 : k2 = e.1 := congrArg Prod.fst h2
        rw [hk, hk2]; exact nle_refl _
      · have := hhead (k2, n2) h2
        rw [hk]
        exact nle_iff.mpr (Or.inl (by simpa using this))
    · have hrest : seek rest key = some (k, n) := by
        rw [seek] at h ⊢
        rwa [List.find?_cons_of_neg _ (by simpa using hpe)] at h
      rcases List.mem_cons.mp hmem with h2 | h2
      · exfalso
        have hk2 : k2 = e.1 := congrArg Prod.fst h2
        rw [hk2] at hle
        exact hpe hle
      · exact ih htail hrest h2 hle

/-- If some stored path extends the sought path, seek lands inside that
subtree: the found path also extends the sought path. -/
theorem seek_prefix_of_ext {db : TrieDb} (hs : DbSorted db) {cur k : Nibbles}
    {n : BranchNodeCompact} (h : seek db cur = some (k, n)) {ke : Nibbles}
    {ne2 : BranchNodeCompact} (hmem : (ke, ne2) ∈ db) (hext : cur <+: ke) :
    cur <+: k :=
  prefix_of_between (seek_le h) (seek_min hs h hmem (nle_of_pref hext)) hext

theorem findStateBit_ge {mask start i : Nat} (h : findStateBit mask start = some i) :
    start ≤ i ∧ i < 16 := by
  have hmem := List.mem_of_find?_eq_some h
  have := List.mem_range'_1.mp hmem
  rcases this with ⟨h1, h2⟩
  refine ⟨h1, ?_⟩
  omega

theorem findStateBit_testBit {mask start i : Nat} (h : findStateBit mask start = some i) :
    mask.testBit i = true := by
  have := List.find?_some h
  simpa using this

theorem findStateBit_isSome {mask : Nat} (hne : mask ≠ 0) (hlt : mask < 2 ^ 16) :
    ∃ i, findStateBit mask 0 = some i := by
  by_contra hc
  push_neg at hc
  have hnone : findStateBit mask 0 = none := by
    cases hx : findStateBit mask 0 with
    | none => rfl
    | some i => exact absurd hx (hc i)
  have hall : ∀ j ∈ List.range' 0 (16 - 0), ¬(mask.testBit j = true) :=
    List.find?_eq_none.mp hnone
  apply hne
  apply Nat.eq_of_testBit_eq
  intro i
  rw [Nat.zero_testBit]
  by_cases hi : i < 16
  · have : i ∈ List.range' 0 (16 - 0) := List.mem_range'_1.mpr ⟨Nat.zero_le i, by omega⟩
    simpa using hall i this
  · exact Nat.testBit_lt_two_pow (lt_of_lt_of_le hlt (Nat.pow_le_pow_right (by omega) (by omega)))

theorem key_prefix_fullKey (f : CursorSubNode) : f.key <+: f.fullKey := by
  unfold CursorSubNode.fullKey
  by_cases h : f.nibble < 0
  · simp [h]
  · simp [h]

theorem fullKey_of_nonneg {f : CursorSubNode} (h : 0 ≤ f.nibble) :
    f.fullKey = f.key ++ [f.nibble.toNat] := by
  unfold CursorSubNode.fullKey
  rw [if_neg (by omega)]

theorem fullKey_of_neg {f : CursorSubNode} (h : f.nibble < 0) : f.fullKey = f.key := by
  unfold CursorSubNode.fullKey
  rw [if_pos h]

theorem fullKey_ne_nil_of_nonneg {f : CursorSubNode} (h : 0 ≤ f.nibble) :
    f.fullKey ≠ [] := by
  rw [fullKey_of_nonneg h]
  simp

/-- The relation between a stack frame and the frame directly beneath it in
the walker stack (spec section 3, "Walker Cursor State"): the lower frame
stands at the child position whose subtree the upper frame visits. -/
def frameRel (above below : CursorSubNode) : Prop :=
  0 ≤ below.nibble ∧ below.fullKey <+: above.key

/-- Validity of one stack frame against the stored state: the sibling index
is in range, a node-less frame is the root frame, and a frame's node is the
stored node at the frame's path. -/
structure FrameWf (db : TrieDb) (f : CursorSubNode) : Prop where
  lb : -1 ≤ f.nibble
  ub : f.nibble ≤ 15
  noneKey : f.node = none → f.key = []
  mem : ∀ n, f.node = some n → (f.key, n) ∈ db

/-- The walker stack invariant (spec section 3, "Walker Cursor State"):
every frame is valid, adjacent frames stand in the ancestor relation, and
the bottom frame is the root frame at the empty path. -/
structure StackInv (db : TrieDb) (stack : List CursorSubNode) : Prop where
  frames : ∀ f ∈ stack, FrameWf db f
  chain : stack.Chain' frameRel
  bottom : ∀ b, stack.getLast? = some b → b.key = []

theorem StackInv.nil (db : TrieDb) : StackInv db [] :=
  ⟨by simp, by simp, by simp⟩

theorem StackInv.tail {db : TrieDb} {t : CursorSubNode} {rest : List CursorSubNode}
    (h : StackInv db (t :: rest)) : StackInv db rest := by
  refine ⟨fun f hf => h.frames f (List.mem_cons_of_mem _ hf), h.chain.tail, ?_⟩
  intro b hb
  apply h.bottom
  cases rest with
  | nil => simp at hb
  | cons g gs => rw [List.getLast?_cons_cons]; exact hb

/-- The bottom frame of a nonempty tail stands at a child position that is
an ancestor prefix of the top frame's key. -/
theorem chain_last_rel : ∀ (rest : List CursorSubNode) (t b : CursorSubNode),
    List.Chain' frameRel (t :: rest) → rest.getLast? = some b →
    0 ≤ b.nibble ∧ b.fullKey <+: t.key := by
  intro rest
  induction rest with
  | nil => intro t b _ hb; simp at hb
  | cons g gs ih =>
    intro t b hchain hb
    have hrel : frameRel t g := (List.chain'_cons.mp hchain).1
    cases gs with
    | nil =>
      have hbg : g = b := by simpa using hb
      subst hbg
      exact ⟨hrel.1, hrel.2⟩
    | cons g2 gs2 =>
      rw [List.getLast?_cons_cons] at hb
      have := ih g b (List.chain'_cons.mp hchain).2 hb
      exact ⟨this.1, this.2.trans ((key_prefix_fullKey g).trans hrel.2)⟩

theorem setBottomNibble_eq_self : ∀ (st : List CursorSubNode) (c : Nat) (b : CursorSubNode),
    st.getLast? = some b → b.nibble = (c : Int) → setBottomNibble c st = st := by
  intro st
  induction st with
  | nil => intro c b hb; simp at hb
  | cons f rest ih =>
    intro c b hb hn
    cases rest with
    | nil =>
      have hbf : f = b := by simpa using hb
      subst hbf
      show [{ f with nibble := (c : Int) }] = [f]
      rw [← hn]
    | cons g gs =>
      rw [List.getLast?_cons_cons] at hb
      show f :: setBottomNibble c (g :: gs) = f :: g :: gs
      rw [ih c b hb hn]

/-- Well-formed persisted state (spec section 3 invariants): entries sorted
strictly ascending, keys are nibble sequences, every stored node has a
nonempty 16-bit state mask, an overall root hash occurs only on the root
node at the empty path, and a set tree-mask bit points at a stored child
subtree. -/
structure DbWf (db : TrieDb) : Prop where
  sorted : DbSorted db
  keysValid : ∀ e ∈ db, ∀ c ∈ e.1, c < 16
  state_ne : ∀ e ∈ db, e.2.state_mask ≠ 0
  state_lt : ∀ e ∈ db, e.2.state_mask < 2 ^ 16
  rootHash_root : ∀ e ∈ db, e.1 ≠ [] → e.2.root_hash = none
  treeConsistent : ∀ e ∈ db, ∀ i, i < 16 → e.2.tree_mask.testBit i = true →
    (seek db (e.1 ++ [i])).all (fun e2 => (e.1 ++ [i]).isPrefixOf e2.1) = true

/-- A frame built on a stored non-root node is positioned at the node's
first existing child. -/
theorem make_of_db {db : TrieDb} (hdb : DbWf db) {k : Nibbles} {n : BranchNodeCompact}
    (hmem : (k, n) ∈ db) (hk : k ≠ []) :
    ∃ c2 : Nat, c2 < 16 ∧ CursorSubNode.make k (some n) = ⟨k, some n, (c2 : Int)⟩ := by
  have hrh : n.root_hash = none := hdb.rootHash_root (k, n) hmem hk
  obtain ⟨i, hi⟩ := findStateBit_isSome (hdb.state_ne (k, n) hmem) (hdb.state_lt (k, n) hmem)
  refine ⟨i, (findStateBit_ge hi).2, ?_⟩
  unfold CursorSubNode.make
  simp [hrh, hi]

/-- The consume step: preserves the stack invariant; the new position is
strictly above the current one; and when the current position's tree bit is
set, the new position lies strictly inside the current position's subtree. -/
theorem consume_spec (db : TrieDb) (hdb : DbWf db) (t : CursorSubNode)
    (rest : List CursorSubNode) (hInv : StackInv db (t :: rest)) (h0 : 0 ≤ t.nibble)
    (hcons : t.node = none ∨
      ∃ n, t.node = some n ∧ n.tree_mask.testBit t.nibble.toNat = true) :
    StackInv db (consumeStack db (t :: rest)) ∧
    (∀ f', (consumeStack db (t :: rest)).head? = some f' →
      nlt t.fullKey f'.fullKey = true ∧
      ((∃ n, t.node = some n ∧ n.tree_mask.testBit t.nibble.toNat = true) →
        t.fullKey <+: f'.fullKey ∧ t.fullKey ≠ f'.fullKey)) := by
  cases hseek : seek db t.fullKey with
  | none =>
    have hres : consumeStack db (t :: rest) = [] := by
      simp [consumeStack, hseek]
    rw [hres]
    exact ⟨StackInv.nil db, by intro f' hf'; simp at hf'⟩
  | some e =>
    obtain ⟨k, n⟩ := e
    have hkmem : (k, n) ∈ db := seek_mem hseek
    have hle : nle t.fullKey k = true := seek_le hseek
    have hcurne : t.fullKey ≠ [] := fullKey_ne_nil_of_nonneg h0
    have hkne : k ≠ [] := ne_nil_of_nle hle hcurne
    obtain ⟨c, k', rfl⟩ : ∃ c k', k = c :: k' := by
      cases k with
      | nil => exact absurd rfl hkne
      | cons c k' => exact ⟨c, k', rfl⟩
    obtain ⟨c2, hc2lt, hmake⟩ := make_of_db hdb hkmem hkne
    have hres : consumeStack db (t :: rest) =
        (⟨c :: k', some n, (c2 : Int)⟩ : CursorSubNode) :: setBottomNibble c (t :: rest) := by
      simp [consumeStack, hseek, hmake]
    have hftop : CursorSubNode.fullKey ⟨c :: k', some n, (c2 : Int)⟩ = (c :: k') ++ [c2] := by
      rw [fullKey_of_nonneg (by positivity)]
      simp
    have hord : nlt t.fullKey ((c :: k') ++ [c2]) = true :=
      nlt_of_nle_of_nlt hle (nlt_append_cons (c :: k') c2 [])
    have htopwf : FrameWf db ⟨c :: k', some n, (c2 : Int)⟩ := by
      refine ⟨?_, ?_, ?_, ?_⟩
      · show (-1 : Int) ≤ ((c2 : Nat) : Int)
        omega
      · show (((c2 : Nat) : Int)) ≤ 15
        omega
      · intro hx; cases hx
      intro n2 hn2
      have : n2 = n := by injection hn2 with h2; exact h2.symm
      rw [this]
      exact hkmem
    -- The subtree-descent facts in the tree-bit case.
    have htree : (∃ n0, t.node = some n0 ∧ n0.tree_mask.testBit t.nibble.toNat = true) →
        t.fullKey <+: (c :: k') := by
      rintro ⟨n0, hn0, hbit⟩
      have hmem0 : (t.key, n0) ∈ db := (hInv.frames t (by simp)).mem n0 hn0
      have hub : t.nibble ≤ 15 := (hInv.frames t (by simp)).ub
      have hfull : t.fullKey = t.key ++ [t.nibble.toNat] := fullKey_of_nonneg h0
      have hall := hdb.treeConsistent (t.key, n0) hmem0 t.nibble.toNat (by omega) hbit
      simp only [← hfull] at hall
      rw [hseek] at hall
      simp only [Option.all] at hall
      exact List.isPrefixOf_iff_prefix.mp hall
    have horder : ∀ f', (consumeStack db (t :: rest)).head? = some f' →
        nlt t.fullKey f'.fullKey = true ∧
        ((∃ n0, t.node = some n0 ∧ n0.tree_mask.testBit t.nibble.toNat = true) →
          t.fullKey <+: f'.fullKey ∧ t.fullKey ≠ f'.fullKey) := by
      intro f' hf'
      rw [hres] at hf'
      have hf'eq : f' = ⟨c :: k', some n, (c2 : Int)⟩ := by
        simpa using hf'.symm
      subst hf'eq
      rw [hftop]
      refine ⟨hord, ?_⟩
      intro hex
      have hpre := htree hex
      constructor
      · exact hpre.trans ⟨[c2], rfl⟩
      · intro heq
        have hlen := hpre.length_le
        rw [heq] at hlen
        simp at hlen
    refine ⟨?_, horder⟩
    -- Stack invariant preservation, by cases on the shape of the stack.
    rcases hcons with hnone | hex
    · -- The current frame has no node: it is the root-only stack.
      have htkey : t.key = [] := (hInv.frames t (by simp)).noneKey hnone
      have hrest : rest = [] := by
        cases rest with
        | nil => rfl
        | cons b bs =>
          exfalso
          have hrel : frameRel t b := (List.chain'_cons.mp hInv.chain).1
          have hpb : b.fullKey <+: t.key := hrel.2
          rw [htkey] at hpb
          have : b.fullKey = [] := List.prefix_nil.mp hpb
          exact fullKey_ne_nil_of_nonneg hrel.1 this
      subst hrest
      rw [hres]
      have hset : setBottomNibble c [t] = [{ t with nibble := (c : Int) }] := rfl
      rw [hset]
      have hclt : c < 16 := hdb.keysValid (c :: k', n) hkmem c (by simp)
      refine ⟨?_, ?_, ?_⟩
      · intro f hf
        rcases List.mem_cons.mp hf with rfl | hf2
        · exact htopwf
        · have hfb : f = { t with nibble := (c : Int) } := by simpa using hf2
          rw [hfb]
          refine ⟨?_, ?_, ?_, ?_⟩
          · show (-1 : Int) ≤ (c : Int); omega
          · show ((c : Int)) ≤ 15; omega
          · intro _; exact htkey
          · intro n2 hn2
            exfalso
            rw [show ({ t with nibble := (c : Int) } : CursorSubNode).node = t.node from rfl,
              hnone] at hn2
            cases hn2
      · refine List.chain'_cons.mpr ⟨⟨?_, ?_⟩, by simp⟩
        · show (0 : Int) ≤ (c : Int); omega
        show CursorSubNode.fullKey { t with nibble := (c : Int) } <+: c :: k'
        rw [fullKey_of_nonneg (by show (0 : Int) ≤ (c : Int); omega)]
        rw [htkey]
        exact ⟨k', by simp⟩
      · intro b hb
        have hbb : { t with nibble := (c : Int) } = b := by simpa using hb
        rw [← hbb]
        exact htkey
    · -- The current frame's tree bit is set: seek stays inside the subtree.
      have hpre := htree hex
      have hfull : t.fullKey = t.key ++ [t.nibble.toNat] := fullKey_of_nonneg h0
      cases rest with
      | nil =>
        have htkey : t.key = [] := hInv.bottom t (by simp)
        -- The found key starts with the current nibble, so the bottom fixup
        -- is a no-op.
        have hhead : c = t.nibble.toNat := by
          rw [hfull, htkey] at hpre
          obtain ⟨tl, htl⟩ := hpre
          simpa using (congrArg List.head? htl).symm
        have hset : setBottomNibble c [t] = [t] := by
          apply setBottomNibble_eq_self [t] c t (by simp)
          omega
        rw [hres, hset]
        refine ⟨?_, ?_, ?_⟩
        · intro f hf
          rcases List.mem_cons.mp hf with rfl | hf2
          · exact htopwf
          · have hft : f = t := by simpa using hf2
            rw [hft]
            exact hInv.frames t (by simp)
        · exact List.chain'_cons.mpr ⟨⟨h0, hpre⟩, by simp⟩
        · intro b hb
          have hbt : t = b := by simpa using hb
          rw [← hbt]
          exact htkey
      | cons b bs =>
        obtain ⟨bot, hbot⟩ : ∃ bot, (b :: bs).getLast? = some bot := by
          cases hx : (b :: bs).getLast? with
          | none => exact absurd hx (by simp)
          | some bot => exact ⟨bot, rfl⟩
        have hbotrel := chain_last_rel (b :: bs) t bot hInv.chain hbot
        have hbotkey : bot.key = [] := by
          apply hInv.bottom
          rw [List.getLast?_cons_cons]
          exact hbot
        have hbotfull : bot.fullKey = [bot.nibble.toNat] := by
          rw [fullKey_of_nonneg hbotrel.1, hbotkey]
          rfl
        -- The chain forces the found key to keep the bottom nibble, so the
        -- bottom fixup is again a no-op.
        have hhead : c = bot.nibble.toNat := by
          have h1 : bot.fullKey <+: (c :: k') :=
            (hbotrel.2.trans (key_prefix_fullKey t)).trans hpre
          rw [hbotfull] at h1
          obtain ⟨tl, htl⟩ := h1
          simpa using (congrArg List.head? htl).symm
        have hset : setBottomNibble c (t :: b :: bs) = t :: b :: bs := by
          apply setBottomNibble_eq_self (t :: b :: bs) c bot
          · rw [List.getLast?_cons_cons]; exact hbot
          · omega
        rw [hres, hset]
        refine ⟨?_, ?_, ?_⟩
        · intro f hf
          rcases List.mem_cons.mp hf with rfl | hf2
          · exact htopwf
          · exact hInv.frames f hf2
        · exact List.chain'_cons.mpr ⟨⟨h0, hpre⟩, hInv.chain⟩
        · intro b2 hb2
          apply hInv.bottom
          rwa [List.getLast?_cons_cons] at hb2

theorem nlt_nil_of_ne {k : Nibbles} (h : k ≠ []) : nlt [] k = true := by
  cases k with
  | nil => exact absurd rfl h
  | cons c k' => rfl

/-- A node-less frame is the root frame, hence the only frame. -/
theorem rest_nil_of_node_none {db : TrieDb} {t : CursorSubNode}
    {rest : List CursorSubNode} (hInv : StackInv db (t :: rest))
    (hnode : t.node = none) : rest = [] := by
  cases rest with
  | nil => rfl
  | cons b bs =>
    exfalso
    have htkey : t.key = [] := (hInv.frames t (by simp)).noneKey hnode
    have hrel : frameRel t b := (List.chain'_cons.mp hInv.chain).1
    have hpb : b.fullKey <+: t.key := hrel.2
    rw [htkey] at hpb
    exact fullKey_ne_nil_of_nonneg hrel.1 (List.prefix_nil.mp hpb)

/-- The next-sibling step: preserves the stack invariant; the new position is
strictly above the old one; and unless the step is the descent from a
node-level position into its children, the new position lies outside the old
position's subtree. -/
theorem move_spec (db : TrieDb) (hdb : DbWf db) :
    ∀ (stack : List CursorSubNode) (allow : Bool), StackInv db stack →
      StackInv db (moveToNextSiblingStack db stack allow) ∧
      (∀ t rest f', stack = t :: rest →
        (moveToNextSiblingStack db stack allow).head? = some f' →
        nlt t.fullKey f'.fullKey = true ∧
        ((t.nibble < 0 ∧ allow = true) ∨ ¬(t.fullKey <+: f'.fullKey))) := by
  intro stack
  induction stack with
  | nil =>
    intro allow hInv
    refine ⟨by simpa [moveToNextSiblingStack] using StackInv.nil db, ?_⟩
    intro t rest f' heq
    cases heq
  | cons t rest ih =>
    intro allow hInv
    -- The backtracking argument shared by every branch that pops the top
    -- frame and recurses on the remaining stack.
    have hpopcase : StackInv db (moveToNextSiblingStack db rest false) ∧
        (∀ f', (moveToNextSiblingStack db rest false).head? = some f' →
          nlt t.fullKey f'.fullKey = true ∧ ¬(t.fullKey <+: f'.fullKey)) := by
      obtain ⟨ih1, ih2⟩ := ih false hInv.tail
      refine ⟨ih1, ?_⟩
      intro f' hf'
      cases rest with
      | nil =>
        simp [moveToNextSiblingStack] at hf'
      | cons b bs =>
        obtain ⟨hgt, hdisj⟩ := ih2 b bs f' rfl hf'
        have hnp : ¬(b.fullKey <+: f'.fullKey) := by
          rcases hdisj with ⟨_, hff⟩ | hnp
          · cases hff
          · exact hnp
        have hrelb : frameRel t b := (List.chain'_cons.mp hInv.chain).1
        have hbt : b.fullKey <+: t.fullKey := hrelb.2.trans (key_prefix_fullKey t)
        refine ⟨nlt_of_ge_not_pref (nle_iff.mpr (Or.inl hgt)) hnp hbt, ?_⟩
        intro hps
        exact hnp (hbt.trans hps)
    by_cases hpop : 15 ≤ t.nibble ∨ (t.nibble < 0 ∧ allow = false)
    · have hmv : moveToNextSiblingStack db (t :: rest) allow =
          moveToNextSiblingStack db rest false := by
        rw [moveToNextSiblingStack]
        rw [if_pos hpop]
      refine ⟨by rw [hmv]; exact hpopcase.1, ?_⟩
      intro t0 rest0 f' heq hf'
      injection heq with h1 h2
      subst h1
      subst h2
      rw [hmv] at hf'
      obtain ⟨hgt, hnp⟩ := hpopcase.2 f' hf'
      exact ⟨hgt, Or.inr hnp⟩
    · have hub : t.nibble ≤ 14 := by omega
      have hcase : 0 ≤ t.nibble ∨ allow = true := by
        by_cases h0 : 0 ≤ t.nibble
        · exact Or.inl h0
        · right
          by_contra hfa
          have hfa2 : allow = false := by
            cases allow
            · rfl
            · exact absurd rfl hfa
          exact hpop (Or.inr ⟨by omega, hfa2⟩)
      cases hnode : t.node with
      | none =>
        have htkey : t.key = [] := (hInv.frames t (by simp)).noneKey hnode
        have hrest : rest = [] := rest_nil_of_node_none hInv hnode
        subst hrest
        have hmv : moveToNextSiblingStack db [t] allow =
            consumeStack db [{ t with nibble := t.nibble + 1 }] := by
          rw [moveToNextSiblingStack]
          rw [if_neg hpop]
          simp only [hnode]
        have hInv1 : StackInv db [{ t with nibble := t.nibble + 1 }] := by
          have hfw := hInv.frames t (by simp)
          refine ⟨?_, by simp, ?_⟩
          · intro f hf
            have hft : f = { t with nibble := t.nibble + 1 } := by simpa using hf
            rw [hft]
            refine ⟨?_, ?_, ?_, ?_⟩
            · show (-1 : Int) ≤ t.nibble + 1
              have := hfw.lb
              omega
            · show t.nibble + 1 ≤ 15
              omega
            · intro _; exact htkey
            · intro n2 hn2
              exfalso
              rw [show ({ t with nibble := t.nibble + 1 } : CursorSubNode).node = t.node
                from rfl, hnode] at hn2
              cases hn2
          · intro b hb
            have hbt : { t with nibble := t.nibble + 1 } = b := by simpa using hb
            rw [← hbt]
            exact htkey
        have h01 : 0 ≤ ({ t with nibble := t.nibble + 1 } : CursorSubNode).nibble := by
          show (0 : Int) ≤ t.nibble + 1
          have := (hInv.frames t (by simp)).lb
          omega
        obtain ⟨hInv', horder'⟩ := consume_spec db hdb _ [] hInv1 h01 (Or.inl hnode)
        refine ⟨by rw [hmv]; exact hInv', ?_⟩
        intro t0 rest0 f' heq hf'
        injection heq with h1 h2
        subst h1
        subst h2
        rw [hmv] at hf'
        obtain ⟨hgt1, _⟩ := horder' f' hf'
        have ht1full : ({ t with nibble := t.nibble + 1 } : CursorSubNode).fullKey =
            [(t.nibble + 1).toNat] := by
          rw [fullKey_of_nonneg h01, htkey]
          rfl
        rw [ht1full] at hgt1
        by_cases hneg : t.nibble < 0
        · have hallow : allow = true := by
            rcases hcase with h0 | h0
            · omega
            · exact h0
          have hftk : t.fullKey = [] := by rw [fullKey_of_neg hneg, htkey]
          rw [hftk]
          refine ⟨?_, Or.inl ⟨hneg, hallow⟩⟩
          apply nlt_nil_of_ne
          intro hnil
          rw [hnil] at hgt1
          simp [nlt] at hgt1
        · have h0t : 0 ≤ t.nibble := by omega
          have hm1 : (t.nibble + 1).toNat = t.nibble.toNat + 1 := by omega
          have hftk : t.fullKey = [t.nibble.toNat] := by
            rw [fullKey_of_nonneg h0t, htkey]
            rfl
          rw [hftk]
          rw [hm1] at hgt1
          constructor
          · have hstep : nlt [t.nibble.toNat] [t.nibble.toNat + 1] = true :=
              nlt_append_lt [] (Nat.lt_succ_self _) [] []
            exact nlt_trans hstep hgt1
          · refine Or.inr ?_
            intro hps
            have : nlt f'.fullKey [t.nibble.toNat + 1] = true := by
              have := nlt_ext_succ (p := []) (n := t.nibble.toNat) (q := f'.fullKey)
                (by simpa using hps)
              simpa using this
            have := nlt_trans hgt1 this
            rw [nlt_irrefl] at this
            exact Bool.false_ne_true this
      | some n =>
        cases hfind : findStateBit n.state_mask
            ({ t with nibble := t.nibble + 1 } : CursorSubNode).nibble.toNat with
        | some i =>
          have hmv : moveToNextSiblingStack db (t :: rest) allow =
              { t with nibble := (i : Int) } :: rest := by
            rw [moveToNextSiblingStack]
            rw [if_neg hpop]
            simp only [hnode, hfind]
          obtain ⟨hige, hilt⟩ := findStateBit_ge hfind
          have histart : ({ t with nibble := t.nibble + 1 } : CursorSubNode).nibble.toNat =
              (t.nibble + 1).toNat := rfl
          have hInv' : StackInv db ({ t with nibble := (i : Int) } :: rest) := by
            refine ⟨?_, ?_, ?_⟩
            · intro f hf
              rcases List.mem_cons.mp hf with rfl | hf2
              · have hfw := hInv.frames t (by simp)
                refine ⟨?_, ?_, ?_, ?_⟩
                · show (-1 : Int) ≤ (i : Int); omega
                · show ((i : Int)) ≤ 15; omega
                · intro hx
                  rw [show ({ t with nibble := (i : Int) } : CursorSubNode).node = t.node
                    from rfl, hnode] at hx
                  cases hx
                · intro n2 hn2
                  rw [show ({ t with nibble := (i : Int) } : CursorSubNode).node = t.node
                    from rfl, hnode] at hn2
                  have hn2n : n2 = n := by injection hn2 with h2; exact h2.symm
                  rw [hn2n]
                  exact hfw.mem n hnode
              · exact hInv.frames f (List.mem_cons_of_mem _ hf2)
            · refine List.chain'_cons'.mpr ⟨?_, hInv.chain.tail⟩
              intro y hy
              exact (List.chain'_cons'.mp hInv.chain).1 y hy
            · intro b hb
              cases rest with
              | nil =>
                have hbt : { t with nibble := (i : Int) } = b := by simpa using hb
                rw [← hbt]
                show t.key = []
                exact hInv.bottom t (by simp)
              | cons g gs =>
                apply hInv.bottom
                rw [List.getLast?_cons_cons] at hb ⊢
                exact hb
          refine ⟨by rw [hmv]; exact hInv', ?_⟩
          intro t0 rest0 f' heq hf'
          injection heq with h1 h2
          subst h1
          subst h2
          rw [hmv] at hf'
          have hf'eq : f' = { t with nibble := (i : Int) } := by simpa using hf'.symm
          subst hf'eq
          have hf'full : ({ t with nibble := (i : Int) } : CursorSubNode).fullKey =
              t.key ++ [i] := by
            rw [fullKey_of_nonneg (by show (0 : Int) ≤ (i : Int); omega)]
            simp
          rw [hf'full]
          by_cases hneg : t.nibble < 0
          · have hallow : allow = true := by
              rcases hcase with h0 | h0
              · omega
              · exact h0
            rw [fullKey_of_neg hneg]
            exact ⟨nlt_append_cons t.key i [], Or.inl ⟨hneg, hallow⟩⟩
          · have h0t : 0 ≤ t.nibble := by omega
            have hmi : t.nibble.toNat < i := by
              rw [histart] at hige
              omega
            rw [fullKey_of_nonneg h0t]
            constructor
            · exact nlt_append_lt t.key hmi [] []
            · refine Or.inr ?_
              intro hps
              have hlen : (t.key ++ [t.nibble.toNat]).length = (t.key ++ [i]).length := by
                simp
              have := hps.eq_of_length hlen
              have : t.nibble.toNat = i := by simpa using this
              omega
        | none =>
          have hmv : moveToNextSiblingStack db (t :: rest) allow =
              moveToNextSiblingStack db rest false := by
            rw [moveToNextSiblingStack]
            rw [if_neg hpop]
            simp only [hnode, hfind]
          refine ⟨by rw [hmv]; exact hpopcase.1, ?_⟩
          intro t0 rest0 f' heq hf'
          injection heq with h1 h2
          subst h1
          subst h2
          rw [hmv] at hf'
          obtain ⟨hgt, hnp⟩ := hpopcase.2 f' hf'
          exact ⟨hgt, Or.inr hnp⟩

theorem make_nibble_bounds (key : Nibbles) (node : Option BranchNodeCompact) :
    -1 ≤ (CursorSubNode.make key node).nibble ∧ (CursorSubNode.make key node).nibble ≤ 15 := by
  unfold CursorSubNode.make
  cases node with
  | none => simp
  | some n =>
    cases hrh : n.root_hash with
    | some v => simp [hrh]
    | none =>
      cases hfs : findStateBit n.state_mask 0 with
      | none => simp [hrh, hfs]
      | some i =>
        have := (findStateBit_ge hfs).2
        simp only [hrh, hfs, Option.isNone_none, if_pos]
        constructor
        · show (-1 : Int) ≤ (i : Int); omega
        · show ((i : Int)) ≤ 15; omega

/-- One advance() step preserves the stack invariant and strictly increases
the current position (spec section 4.2, key invariant). -/
theorem advance_spec (db : TrieDb) (hdb : DbWf db) (ps : PrefixSet) (w : TrieWalker)
    (hInv : StackInv db w.stack) :
    StackInv db (w.advance db ps).stack ∧
    (∀ k k', w.key = some k → (w.advance db ps).key = some k' → nlt k k' = true) := by
  cases hstack : w.stack with
  | nil =>
    have hadv : w.advance db ps = w := by
      simp [TrieWalker.advance, hstack]
    rw [hadv]
    refine ⟨hInv, ?_⟩
    intro k k' hk _
    rw [TrieWalker.key, hstack] at hk
    simp at hk
  | cons t rest =>
    have hInv' : StackInv db (t :: rest) := hstack ▸ hInv
    have hkeyt : w.key = some t.fullKey := by
      rw [TrieWalker.key, hstack]
      rfl
    by_cases hc : w.can_skip_current_node = false ∧ t.treeFlag = true
    · by_cases hneg : t.nibble < 0
      · have hadv : w.advance db ps =
            updateSkip ps (moveToNextSiblingStack db (t :: rest) true) := by
          simp only [TrieWalker.advance, hstack]
          rw [if_pos hc, if_pos hneg]
        obtain ⟨m1, m2⟩ := move_spec db hdb (t :: rest) true hInv'
        refine ⟨by rw [hadv]; exact m1, ?_⟩
        intro k k' hk hk'
        rw [hkeyt] at hk
        have hkt : t.fullKey = k := Option.some_inj.mp hk
        rw [hadv, TrieWalker.key] at hk'
        obtain ⟨f', hf1, hf2⟩ := Option.map_eq_some'.mp hk'
        rw [← hkt, ← hf2]
        exact (m2 t rest f' rfl hf1).1
      · have h0 : 0 ≤ t.nibble := by omega
        have hadv : w.advance db ps = updateSkip ps (consumeStack db (t :: rest)) := by
          simp only [TrieWalker.advance, hstack]
          rw [if_pos hc, if_neg hneg]
        have hcons : t.node = none ∨
            ∃ n, t.node = some n ∧ n.tree_mask.testBit t.nibble.toNat = true := by
          cases hn : t.node with
          | none => exact Or.inl rfl
          | some n =>
            right
            refine ⟨n, rfl, ?_⟩
            have htf := hc.2
            rw [CursorSubNode.treeFlag, hn] at htf
            simpa [h0] using htf
        obtain ⟨c1, c2⟩ := consume_spec db hdb t rest hInv' h0 hcons
        refine ⟨by rw [hadv]; exact c1, ?_⟩
        intro k k' hk hk'
        rw [hkeyt] at hk
        have hkt : t.fullKey = k := Option.some_inj.mp hk
        rw [hadv, TrieWalker.key] at hk'
        obtain ⟨f', hf1, hf2⟩ := Option.map_eq_some'.mp hk'
        rw [← hkt, ← hf2]
        exact (c2 f' hf1).1
    · have hadv : w.advance db ps =
          updateSkip ps (moveToNextSiblingStack db (t :: rest) false) := by
        simp only [TrieWalker.advance, hstack]
        rw [if_neg hc]
      obtain ⟨m1, m2⟩ := move_spec db hdb (t :: rest) false hInv'
      refine ⟨by rw [hadv]; exact m1, ?_⟩
      intro k k' hk hk'
      rw [hkeyt] at hk
      have hkt : t.fullKey = k := Option.some_inj.mp hk
      rw [hadv, TrieWalker.key] at hk'
      obtain ⟨f', hf1, hf2⟩ := Option.map_eq_some'.mp hk'
      rw [← hkt, ← hf2]
      exact (m2 t rest f' rfl hf1).1

/-- The freshly constructed walker satisfies the stack invariant. -/
theorem new_inv (db : TrieDb) (hdb : DbWf db) (ps : PrefixSet) :
    StackInv db (TrieWalker.new db ps).stack := by
  cases hroot : seekExact db [] with
  | none =>
    have hnew : (TrieWalker.new db ps).stack = [⟨[], none, -1⟩] := by
      simp [TrieWalker.new, hroot]
    rw [hnew]
    refine ⟨?_, by simp, ?_⟩
    · intro f hf
      have hfe : f = ⟨[], none, -1⟩ := by simpa using hf
      rw [hfe]
      exact ⟨by norm_num, by norm_num, fun _ => rfl, fun n2 hn2 => by cases hn2⟩
    · intro b hb
      have hbe : (⟨[], none, -1⟩ : CursorSubNode) = b := by simpa using hb
      rw [← hbe]
  | some e =>
    obtain ⟨k, n⟩ := e
    have hk : k = [] := seekExact_eq hroot
    subst hk
    have hmem : (([] : Nibbles), n) ∈ db := seekExact_mem hroot
    have hnew : (TrieWalker.new db ps).stack = [CursorSubNode.make [] (some n)] := by
      simp [TrieWalker.new, hroot, updateSkip]
    rw [hnew]
    obtain ⟨hlb, hub⟩ := make_nibble_bounds [] (some n)
    refine ⟨?_, by simp, ?_⟩
    · intro f hf
      have hfe : f = CursorSubNode.make [] (some n) := by simpa using hf
      rw [hfe]
      refine ⟨hlb, hub, fun _ => rfl, ?_⟩
      intro n2 hn2
      have hn2' : n2 = n := by
        have : (CursorSubNode.make [] (some n)).node = some n := rfl
        rw [this] at hn2
        injection hn2 with h2
        exact h2.symm
      rw [hn2']
      exact hmem
    · intro b hb
      have hbe : CursorSubNode.make [] (some n) = b := by simpa using hb
      rw [← hbe]
      rfl

/-- Starting from any invariant-satisfying position, the current path
followed by all later yielded paths forms a strictly increasing chain. -/
theorem walk_chain (db : TrieDb) (hdb : DbWf db) (ps : PrefixSet) :
    ∀ (fuel : Nat) (w : TrieWalker) (k : Nibbles), StackInv db w.stack →
      w.key = some k →
      List.Chain' (fun a b => nlt a b = true) (k :: walkKeys db ps fuel w) := by
  intro fuel
  induction fuel with
  | zero => intro w k _ _; simp [walkKeys]
  | succ m ih =>
    intro w k hInv hk
    cases hk' : (w.advance db ps).key with
    | none =>
      have : walkKeys db ps (m + 1) w = [] := by
        rw [walkKeys]
        simp [hk']
      rw [this]
      simp
    | some k2 =>
      obtain ⟨hInv2, hord⟩ := advance_spec db hdb ps w hInv
      have h12 : nlt k k2 = true := hord k k2 hk hk'
      have htail := ih (w.advance db ps) k2 hInv2 hk'
      have : walkKeys db ps (m + 1) w = k2 :: walkKeys db ps m (w.advance db ps) := by
        rw [walkKeys]
        simp [hk']
      rw [this]
      exact List.chain'_cons.mpr ⟨h12, htail⟩

/-- C1: for every well-formed persisted trie state (the merged persisted
plus overlay node view) and every prefix set, the nibble paths yielded by
successive advance() calls are strictly increasing in lexicographic nibble
order, so no path is ever yielded twice within one walk. -/
theorem claim_C1_walker_order (db : TrieDb) (ps : PrefixSet) (hdb : DbWf db) (fuel : Nat) :
    List.Chain' (fun a b => nlt a b = true)
      (walkKeys db ps fuel (TrieWalker.new db ps)) ∧
    List.Pairwise (fun a b => a ≠ b)
      (walkKeys db ps fuel (TrieWalker.new db ps)) := by
  have hInv := new_inv db hdb ps
  have hkey : ∃ k0, (TrieWalker.new db ps).key = some k0 := by
    cases hroot : seekExact db [] with
    | none => exact ⟨[], by simp [TrieWalker.new, hroot, TrieWalker.key,
        CursorSubNode.fullKey]⟩
    | some e =>
      obtain ⟨k, n⟩ := e
      exact ⟨(CursorSubNode.make k (some n)).fullKey,
        by simp [TrieWalker.new, hroot, TrieWalker.key, updateSkip]⟩
  obtain ⟨k0, hk0⟩ := hkey
  have hchain := walk_chain db hdb ps fuel (TrieWalker.new db ps) k0 hInv hk0
  have hchain' := (List.chain'_cons'.mp hchain).2
  refine ⟨hchain', ?_⟩
  haveI : IsTrans Nibbles (fun a b => nlt a b = true) := ⟨fun _ _ _ => nlt_trans⟩
  have hpw := List.chain'_iff_pairwise.mp hchain'
  refine hpw.imp ?_
  intro a b hab
  intro he
  rw [he, nlt_irrefl] at hab
  exact Bool.false_ne_true hab

/-- The stored nodes of the walk_nodes_with_common_prefix test form a
well-formed persisted state. -/
theorem commonPrefixDb_wf : DbWf commonPrefixDb := by
  refine ⟨?_, ?_, ?_, ?_, ?_, ?_⟩
  · unfold DbSorted
    decide
  all_goals decide

/-- Closed witness for C1: the strict-order property on the concrete stored
nodes of the walk_nodes_with_common_prefix test. -/
theorem claim_C1_walker_order_witness :
    List.Chain' (fun a b => nlt a b = true)
      (walkKeys commonPrefixDb emptyPrefixSet 20
        (TrieWalker.new commonPrefixDb emptyPrefixSet)) ∧
    List.Pairwise (fun a b => a ≠ b)
      (walkKeys commonPrefixDb emptyPrefixSet 20
        (TrieWalker.new commonPrefixDb emptyPrefixSet)) :=
  claim_C1_walker_order commonPrefixDb emptyPrefixSet commonPrefixDb_wf 20

/-- The skip flag of a walker state agrees with the decision rule for its
current position (spec section 4.2, "Decision rule"). -/
def SkipConsistent (ps : PrefixSet) (w : TrieWalker) : Prop :=
  w.can_skip_current_node =
    match w.stack.head? with
    | some t => !ps.contains t.fullKey && t.hashFlag
    | none => false

theorem skip_new (db : TrieDb) (ps : PrefixSet) :
    SkipConsistent ps (TrieWalker.new db ps) := by
  unfold SkipConsistent TrieWalker.new
  cases hroot : seekExact db [] with
  | none => simp [updateSkip, CursorSubNode.hashFlag]
  | some e =>
    obtain ⟨k, n⟩ := e
    simp [updateSkip]

theorem skip_advance (db : TrieDb) (ps : PrefixSet) (w : TrieWalker)
    (hw : SkipConsistent ps w) : SkipConsistent ps (w.advance db ps) := by
  cases hstack : w.stack with
  | nil =>
    have : w.advance db ps = w := by simp [TrieWalker.advance, hstack]
    rw [this]
    exact hw
  | cons t rest =>
    unfold SkipConsistent
    simp only [TrieWalker.advance, hstack]
    rfl

theorem advanceN_inv (db : TrieDb) (hdb : DbWf db) (ps : PrefixSet) :
    ∀ (n : Nat) (w : TrieWalker), StackInv db w.stack → SkipConsistent ps w →
      StackInv db (advanceN db ps n w).stack ∧ SkipConsistent ps (advanceN db ps n w) := by
  intro n
  induction n with
  | zero => intro w h1 h2; exact ⟨h1, h2⟩
  | succ m ih =>
    intro w h1 h2
    exact ih (w.advance db ps) (advance_spec db hdb ps w h1).1 (skip_advance db ps w h2)

theorem treeFlag_of_neg {t : CursorSubNode} (h : t.nibble < 0) : t.treeFlag = true := by
  unfold CursorSubNode.treeFlag
  have hn : ¬(0 ≤ t.nibble) := by omega
  cases t.node with
  | none => rfl
  | some n => simp [hn]

/-- A nonempty consume result is topped by the consumed stored node. -/
theorem consumeStack_top_some (db : TrieDb) (stack : List CursorSubNode) :
    ∀ f', (consumeStack db stack).head? = some f' → ∃ n2, f'.node = some n2 := by
  intro f' hf'
  cases stack with
  | nil => simp [consumeStack] at hf'
  | cons t rest =>
    cases hseek : seek db t.fullKey with
    | none => simp [consumeStack, hseek] at hf'
    | some e =>
      obtain ⟨k, n⟩ := e
      have hf2 : CursorSubNode.make k (some n) = f' := by
        simpa [consumeStack, hseek] using hf'
      rw [← hf2]
      exact ⟨n, rfl⟩

/-- A nonempty next-sibling result is topped by a frame holding a node. -/
theorem move_top_some (db : TrieDb) :
    ∀ (stack : List CursorSubNode) (allow : Bool) (f' : CursorSubNode),
      (moveToNextSiblingStack db stack allow).head? = some f' →
      ∃ n2, f'.node = some n2 := by
  intro stack
  induction stack with
  | nil => intro allow f' hf'; simp [moveToNextSiblingStack] at hf'
  | cons t rest ih =>
    intro allow f' hf'
    by_cases hpop : 15 ≤ t.nibble ∨ (t.nibble < 0 ∧ allow = false)
    · rw [moveToNextSiblingStack] at hf'
      rw [if_pos hpop] at hf'
      exact ih false f' hf'
    · cases hnode : t.node with
      | none =>
        have hmv : moveToNextSiblingStack db (t :: rest) allow =
            consumeStack db ({ t with nibble := t.nibble + 1 } :: rest) := by
          rw [moveToNextSiblingStack]
          rw [if_neg hpop]
          simp only [hnode]
        rw [hmv] at hf'
        exact consumeStack_top_some db _ f' hf'
      | some n =>
        cases hfind : findStateBit n.state_mask
            ({ t with nibble := t.nibble + 1 } : CursorSubNode).nibble.toNat with
        | some i =>
          have hmv : moveToNextSiblingStack db (t :: rest) allow =
              { t with nibble := (i : Int) } :: rest := by
            rw [moveToNextSiblingStack]
            rw [if_neg hpop]
            simp only [hnode, hfind]
          rw [hmv] at hf'
          have hf2 : f' = { t with nibble := (i : Int) } := by simpa using hf'.symm
          rw [hf2]
          exact ⟨n, hnode⟩
        | none =>
          have hmv : moveToNextSiblingStack db (t :: rest) allow =
              moveToNextSiblingStack db rest false := by
            rw [moveToNextSiblingStack]
            rw [if_neg hpop]
            simp only [hnode, hfind]
          rw [hmv] at hf'
          exact ih false f' hf'

/-- After any advance() the current frame, if any, holds a stored node. -/
theorem advance_top_some (db : TrieDb) (ps : PrefixSet) (w : TrieWalker) :
    ∀ f', (w.advance db ps).stack.head? = some f' → ∃ n2, f'.node = some n2 := by
  intro f' hf'
  cases hstack : w.stack with
  | nil =>
    have hadv : w.advance db ps = w := by simp [TrieWalker.advance, hstack]
    rw [hadv, hstack] at hf'
    simp at hf'
  | cons t rest =>
    by_cases hc : w.can_skip_current_node = false ∧ t.treeFlag = true
    · by_cases hneg : t.nibble < 0
      · have hadv : w.advance db ps =
            updateSkip ps (moveToNextSiblingStack db (t :: rest) true) := by
          simp only [TrieWalker.advance, hstack]
          rw [if_pos hc, if_pos hneg]
        rw [hadv] at hf'
        exact move_top_some db (t :: rest) true f' hf'
      · have hadv : w.advance db ps = updateSkip ps (consumeStack db (t :: rest)) := by
          simp only [TrieWalker.advance, hstack]
          rw [if_pos hc, if_neg hneg]
        rw [hadv] at hf'
        exact consumeStack_top_some db (t :: rest) f' hf'
    · have hadv : w.advance db ps =
          updateSkip ps (moveToNextSiblingStack db (t :: rest) false) := by
        simp only [TrieWalker.advance, hstack]
        rw [if_neg hc]
      rw [hadv] at hf'
      exact move_top_some db (t :: rest) false f' hf'

/-- A node-less current frame only occurs at the initial node-level root
position. -/
def TopOk (w : TrieWalker) : Prop :=
  ∀ t, w.stack.head? = some t → t.node = none → t.nibble < 0

theorem topOk_new (db : TrieDb) (ps : PrefixSet) : TopOk (TrieWalker.new db ps) := by
  intro t ht hnone
  cases hroot : seekExact db [] with
  | none =>
    have hstack : (TrieWalker.new db ps).stack = [⟨[], none, -1⟩] := by
      simp [TrieWalker.new, hroot]
    rw [hstack] at ht
    have ht2 : (⟨[], none, -1⟩ : CursorSubNode) = t := by simpa using ht
    rw [← ht2]
    norm_num
  | some e =>
    obtain ⟨k, n⟩ := e
    have hstack : (TrieWalker.new db ps).stack = [CursorSubNode.make k (some n)] := by
      simp [TrieWalker.new, hroot, updateSkip]
    rw [hstack] at ht
    have ht2 : CursorSubNode.make k (some n) = t := by simpa using ht
    rw [← ht2] at hnone
    exact Option.noConfusion
      (show (some n : Option BranchNodeCompact) = none from hnone)

theorem topOk_advance (db : TrieDb) (ps : PrefixSet) (w : TrieWalker) :
    TopOk (w.advance db ps) := by
  intro t ht hnone
  obtain ⟨n2, hn2⟩ := advance_top_some db ps w t ht
  rw [hnone] at hn2
  cases hn2

theorem advanceN_topOk (db : TrieDb) (ps : PrefixSet) :
    ∀ n, TopOk (advanceN db ps n (TrieWalker.new db ps)) := by
  have hstep : ∀ (n : Nat) (w : TrieWalker), TopOk w → TopOk (advanceN db ps n w) := by
    intro n
    induction n with
    | zero => intro w h; exact h
    | succ m ih => intro w _; exact ih (w.advance db ps) (topOk_advance db ps w)
  intro n
  exact hstep n _ (topOk_new db ps)

/-- Descending from a node-level position: the next position is strictly
inside the node's subtree. -/
theorem descend_spec (db : TrieDb) (hdb : DbWf db) (t : CursorSubNode)
    (rest : List CursorSubNode) (hInv : StackInv db (t :: rest)) (hneg : t.nibble < 0) :
    ∀ f', (moveToNextSiblingStack db (t :: rest) true).head? = some f' →
      t.fullKey <+: f'.fullKey ∧ t.fullKey ≠ f'.fullKey := by
  intro f' hf'
  have hlb := (hInv.frames t (by simp)).lb
  have hm1 : t.nibble = -1 := by omega
  have hpop : ¬(15 ≤ t.nibble ∨ (t.nibble < 0 ∧ true = false)) := by
    push_neg
    exact ⟨by omega, fun _ => by simp⟩
  cases hnode : t.node with
  | none =>
    have htkey : t.key = [] := (hInv.frames t (by simp)).noneKey hnode
    have hmv : moveToNextSiblingStack db (t :: rest) true =
        consumeStack db ({ t with nibble := t.nibble + 1 } :: rest) := by
      rw [moveToNextSiblingStack]
      rw [if_neg hpop]
      simp only [hnode]
    rw [hmv] at hf'
    have h01 : 0 ≤ ({ t with nibble := t.nibble + 1 } : CursorSubNode).nibble := by
      show (0 : Int) ≤ t.nibble + 1
      omega
    cases hseek : seek db ({ t with nibble := t.nibble + 1 } : CursorSubNode).fullKey with
    | none =>
      rw [show consumeStack db ({ t with nibble := t.nibble + 1 } :: rest) = [] from by
        simp [consumeStack, hseek]] at hf'
      simp at hf'
    | some e =>
      obtain ⟨k, n2⟩ := e
      have hkne : k ≠ [] :=
        ne_nil_of_nle (seek_le hseek) (fullKey_ne_nil_of_nonneg h01)
      obtain ⟨c, k2, rfl⟩ : ∃ c k2, k = c :: k2 := by
        cases k with
        | nil => exact absurd rfl hkne
        | cons c k2 => exact ⟨c, k2, rfl⟩
      have hf'head : f' = CursorSubNode.make (c :: k2) (some n2) := by
        rw [show consumeStack db ({ t with nibble := t.nibble + 1 } :: rest) =
          CursorSubNode.make (c :: k2) (some n2) ::
            setBottomNibble c ({ t with nibble := t.nibble + 1 } :: rest) from by
          simp [consumeStack, hseek]] at hf'
        simpa using hf'.symm
      have hfne : f'.fullKey ≠ [] := by
        intro hx
        have hpf := key_prefix_fullKey f'
        rw [hx] at hpf
        have hknil : f'.key = [] := List.prefix_nil.mp hpf
        rw [hf'head] at hknil
        exact List.cons_ne_nil c k2 hknil
      rw [fullKey_of_neg hneg, htkey]
      exact ⟨ List.nil_prefix, fun hx => hfne hx.symm⟩
  | some n =>
    have hmem := (hInv.frames t (by simp)).mem n hnode
    obtain ⟨i, hi⟩ := findStateBit_isSome (hdb.state_ne _ hmem) (hdb.state_lt _ hmem)
    have hmv : moveToNextSiblingStack db (t :: rest) true =
        { t with nibble := (i : Int) } :: rest := by
      rw [moveToNextSiblingStack]
      rw [if_neg hpop]
      simp only [hnode]
      rw [show ({ t with nibble := t.nibble + 1 } : CursorSubNode).nibble.toNat = 0 from by
        show (t.nibble + 1).toNat = 0
        omega]
      rw [hi]
    rw [hmv] at hf'
    have hf'eq : f' = { t with nibble := (i : Int) } := by simpa using hf'.symm
    subst hf'eq
    have hf'full : ({ t with nibble := (i : Int) } : CursorSubNode).fullKey =
        t.key ++ [i] := by
      rw [fullKey_of_nonneg (by show (0 : Int) ≤ (i : Int); omega)]
      simp
    rw [hf'full, fullKey_of_neg hneg]
    refine ⟨⟨[i], rfl⟩, ?_⟩
    intro hx
    have : t.key.length = (t.key ++ [i]).length := congrArg List.length hx
    simp at this

/-- C5: at every position visited during a walk, can_skip_current_node is
true iff a cached hash covers the position and the Prefix Set reports no
changed key with the position as prefix; when true the next step never
enters the position's subtree, and when false at a visited branch node (a
position whose subtree is persisted, whether the node-level root position or
a child position with a set tree bit) the next step descends strictly into
its subtree. -/
theorem claim_C5_skip_decision (db : TrieDb) (ps : PrefixSet) (hdb : DbWf db)
    (n : Nat) (w : TrieWalker) (hw : w = advanceN db ps n (TrieWalker.new db ps)) :
    (∀ t, w.stack.head? = some t →
      (w.can_skip_current_node = true ↔
        (t.hashFlag = true ∧ ps.contains t.fullKey = false))) ∧
    (w.can_skip_current_node = true →
      ∀ k k', w.key = some k → (w.advance db ps).key = some k' →
        nlt k k' = true ∧ ¬(k <+: k')) ∧
    (∀ t, w.stack.head? = some t → w.can_skip_current_node = false →
      t.treeFlag = true →
      ∀ k k', w.key = some k → (w.advance db ps).key = some k' →
        k <+: k' ∧ k ≠ k') := by
  have hreach := advanceN_inv db hdb ps n (TrieWalker.new db ps)
    (new_inv db hdb ps) (skip_new db ps)
  rw [← hw] at hreach
  obtain ⟨hInv, hskip⟩ := hreach
  refine ⟨?_, ?_, ?_⟩
  · intro t ht
    unfold SkipConsistent at hskip
    rw [ht] at hskip
    rw [hskip]
    cases hcon : ps.contains t.fullKey <;> cases hhf : t.hashFlag <;> simp [hcon, hhf]
  · intro hcs k k' hk hk'
    cases hstack : w.stack with
    | nil =>
      rw [TrieWalker.key, hstack] at hk
      simp at hk
    | cons t rest =>
      have hInv' : StackInv db (t :: rest) := hstack ▸ hInv
      have hc : ¬(w.can_skip_current_node = false ∧ t.treeFlag = true) := by
        intro hx
        rw [hcs] at hx
        cases hx.1
      have hadv : w.advance db ps =
          updateSkip ps (moveToNextSiblingStack db (t :: rest) false) := by
        simp only [TrieWalker.advance, hstack]
        rw [if_neg hc]
      have hkt : t.fullKey = k := by
        rw [TrieWalker.key, hstack] at hk
        exact Option.some_inj.mp hk
      rw [hadv, TrieWalker.key] at hk'
      obtain ⟨f', hf1, hf2⟩ := Option.map_eq_some'.mp hk'
      obtain ⟨hgt, hdisj⟩ := (move_spec db hdb (t :: rest) false hInv').2 t rest f' rfl hf1
      have hnp : ¬(t.fullKey <+: f'.fullKey) := by
        rcases hdisj with ⟨_, hff⟩ | hnp
        · cases hff
        · exact hnp
      rw [← hkt, ← hf2]
      exact ⟨hgt, hnp⟩
  · intro t ht hcs htree k k' hk hk'
    cases hstack : w.stack with
    | nil =>
      rw [hstack] at ht
      simp at ht
    | cons t0 rest =>
      have ht0 : t0 = t := by
        rw [hstack] at ht
        simpa using ht
      subst ht0
      have hInv' : StackInv db (t0 :: rest) := hstack ▸ hInv
      have hc : w.can_skip_current_node = false ∧ t0.treeFlag = true := ⟨hcs, htree⟩
      have hkt : t0.fullKey = k := by
        rw [TrieWalker.key, hstack] at hk
        exact Option.some_inj.mp hk
      by_cases hneg : t0.nibble < 0
      · -- Node-level position: descend to the node's first child.
        have hadv : w.advance db ps =
            updateSkip ps (moveToNextSiblingStack db (t0 :: rest) true) := by
          simp only [TrieWalker.advance, hstack]
          rw [if_pos hc, if_pos hneg]
        rw [hadv, TrieWalker.key] at hk'
        obtain ⟨f', hf1, hf2⟩ := Option.map_eq_some'.mp hk'
        have := descend_spec db hdb t0 rest hInv' hneg f' hf1
        rw [← hkt, ← hf2]
        exact this
      · -- Child position with a set tree bit: consume the child's node.
        have h0 : 0 ≤ t0.nibble := by omega
        have hadv : w.advance db ps = updateSkip ps (consumeStack db (t0 :: rest)) := by
          simp only [TrieWalker.advance, hstack]
          rw [if_pos hc, if_neg hneg]
        have htop : TopOk w := by
          rw [hw]
          exact advanceN_topOk db ps n
        have hex : ∃ n0, t0.node = some n0 ∧
            n0.tree_mask.testBit t0.nibble.toNat = true := by
          cases hn : t0.node with
          | none =>
            exfalso
            have := htop t0 ht hn
            omega
          | some n0 =>
            refine ⟨n0, rfl, ?_⟩
            have htf := htree
            rw [CursorSubNode.treeFlag, hn] at htf
            simpa [h0] using htf
        obtain ⟨c1, c2⟩ := consume_spec db hdb t0 rest hInv' h0 (Or.inr hex)
        rw [hadv, TrieWalker.key] at hk'
        obtain ⟨f', hf1, hf2⟩ := Option.map_eq_some'.mp hk'
        rw [← hkt, ← hf2]
        exact (c2 f' hf1).2 hex

/-- Closed witness for C5: two advances into the walk_nodes_with_common_prefix
walk, the walker stands at the child position 5,2 whose tree bit is set and
which is not skippable, and the next advance() descends strictly into that
child's subtree (to 5,2,C,0). -/
theorem claim_C5_skip_decision_witness :
    ([0x5, 0x2] : Nibbles) <+: [0x5, 0x2, 0xC, 0x0] ∧
    ([0x5, 0x2] : Nibbles) ≠ [0x5, 0x2, 0xC, 0x0] :=
  (claim_C5_skip_decision commonPrefixDb emptyPrefixSet commonPrefixDb_wf 2
      (advanceN commonPrefixDb emptyPrefixSet 2
        (TrieWalker.new commonPrefixDb emptyPrefixSet)) rfl).2.2
    ⟨[0x5], some ⟨0b100000101, 0b100000100, 0, [], none⟩, 2⟩
    (by decide) (by decide) (by decide) [0x5, 0x2] [0x5, 0x2, 0xC, 0x0]
    (by decide) (by decide)

/-- The advance() step as a relation, one constructor per branch of the
walker's control flow (spec section 4.2): finished walk, descent from a
node-level position, consumption of a child subtree's node, or move to the
next sibling past a skippable or leaf-only position. -/
inductive AdvanceStep (db : TrieDb) (ps : PrefixSet) : TrieWalker → TrieWalker → Prop where
  | finished : ∀ w, w.stack = [] → AdvanceStep db ps w w
  | descend : ∀ w t rest, w.stack = t :: rest → w.can_skip_current_node = false →
      t.treeFlag = true → t.nibble < 0 →
      AdvanceStep db ps w (updateSkip ps (moveToNextSiblingStack db (t :: rest) true))
  | consume : ∀ w t rest, w.stack = t :: rest → w.can_skip_current_node = false →
      t.treeFlag = true → ¬(t.nibble < 0) →
      AdvanceStep db ps w (updateSkip ps (consumeStack db (t :: rest)))
  | sibling : ∀ w t rest, w.stack = t :: rest →
      ¬(w.can_skip_current_node = false ∧ t.treeFlag = true) →
      AdvanceStep db ps w (updateSkip ps (moveToNextSiblingStack db (t :: rest) false))

/-- The step relation is deterministic: a state has exactly one successor. -/
theorem advanceStep_det (db : TrieDb) (ps : PrefixSet) (w w1 w2 : TrieWalker)
    (h1 : AdvanceStep db ps w w1) (h2 : AdvanceStep db ps w w2) : w1 = w2 := by
  cases h1 with
  | finished hs1 =>
    cases h2 with
    | finished _ => rfl
    | descend t rest hs2 _ _ _ => rw [hs1] at hs2; cases hs2
    | consume t rest hs2 _ _ _ => rw [hs1] at hs2; cases hs2
    | sibling t rest hs2 _ => rw [hs1] at hs2; cases hs2
  | descend t rest hs1 hskip1 htree1 hneg1 =>
    cases h2 with
    | finished hs2 => rw [hs2] at hs1; cases hs1
    | descend t2 rest2 hs2 _ _ _ =>
      rw [hs1] at hs2
      injection hs2 with ha hb
      rw [ha, hb]
    | consume t2 rest2 hs2 _ _ hneg2 =>
      rw [hs1] at hs2
      injection hs2 with ha hb
      rw [← ha] at hneg2
      exact absurd hneg1 hneg2
    | sibling t2 rest2 hs2 hnot2 =>
      rw [hs1] at hs2
      injection hs2 with ha hb
      rw [← ha] at hnot2
      exact absurd ⟨hskip1, htree1⟩ hnot2
  | consume t rest hs1 hskip1 htree1 hneg1 =>
    cases h2 with
    | finished hs2 => rw [hs2] at hs1; cases hs1
    | descend t2 rest2 hs2 _ _ hneg2 =>
      rw [hs1] at hs2
      injection hs2 with ha hb
      rw [← ha] at hneg2
      exact absurd hneg2 hneg1
    | consume t2 rest2 hs2 _ _ _ =>
      rw [hs1] at hs2
      injection hs2 with ha hb
      rw [ha, hb]
    | sibling t2 rest2 hs2 hnot2 =>
      rw [hs1] at hs2
      injection hs2 with ha hb
      rw [← ha] at hnot2
      exact absurd ⟨hskip1, htree1⟩ hnot2
  | sibling t rest hs1 hnot1 =>
    cases h2 with
    | finished hs2 => rw [hs2] at hs1; cases hs1
    | descend t2 rest2 hs2 hskip2 htree2 _ =>
      rw [hs1] at hs2
      injection hs2 with ha hb
      rw [← ha] at htree2
      exact absurd ⟨hskip2, htree2⟩ hnot1
    | consume t2 rest2 hs2 hskip2 htree2 _ =>
      rw [hs1] at hs2
      injection hs2 with ha hb
      rw [← ha] at htree2
      exact absurd ⟨hskip2, htree2⟩ hnot1
    | sibling t2 rest2 hs2 _ =>
      rw [hs1] at hs2
      injection hs2 with ha hb
      rw [ha, hb]

/-- The function advance() implements the step relation. -/
theorem advanceStep_total (db : TrieDb) (ps : PrefixSet) (w : TrieWalker) :
    AdvanceStep db ps w (w.advance db ps) := by
  cases hstack : w.stack with
  | nil =>
    have hadv : w.advance db ps = w := by simp [TrieWalker.advance, hstack]
    rw [hadv]
    exact .finished w hstack
  | cons t rest =>
    by_cases hc : w.can_skip_current_node = false ∧ t.treeFlag = true
    · by_cases hneg : t.nibble < 0
      · have hadv : w.advance db ps =
            updateSkip ps (moveToNextSiblingStack db (t :: rest) true) := by
          simp only [TrieWalker.advance, hstack]
          rw [if_pos hc, if_pos hneg]
        rw [hadv]
        exact .descend w t rest hstack hc.1 hc.2 hneg
      · have hadv : w.advance db ps = updateSkip ps (consumeStack db (t :: rest)) := by
          simp only [TrieWalker.advance, hstack]
          rw [if_pos hc, if_neg hneg]
        rw [hadv]
        exact .consume w t rest hstack hc.1 hc.2 hneg
    · have hadv : w.advance db ps =
          updateSkip ps (moveToNextSiblingStack db (t :: rest) false) := by
        simp only [TrieWalker.advance, hstack]
        rw [if_neg hc]
      rw [hadv]
      exact .sibling w t rest hstack hc

/-- A complete walk as a relation: the sequence of (path, skip decision)
pairs produced by successive advance() steps until the walk is exhausted. -/
inductive WalkSeq (db : TrieDb) (ps : PrefixSet) : TrieWalker → List (Nibbles × Bool) → Prop where
  | done : ∀ w w', AdvanceStep db ps w w' → w'.key = none → WalkSeq db ps w []
  | step : ∀ w w' k l, AdvanceStep db ps w w' → w'.key = some k →
      WalkSeq db ps w' l → WalkSeq db ps w ((k, w'.can_skip_current_node) :: l)

/-- C7: the walk is deterministic: over one fixed triple of merged node view
and prefix set, any two complete walks from the same starting state yield
exactly the same sequence of emitted paths and skip decisions; and the
walker's advance() function realises the step relation, so two runs of the
code produce that unique sequence. -/
theorem claim_C7_deterministic_walk (db : TrieDb) (ps : PrefixSet) :
    (∀ w l1 l2, WalkSeq db ps w l1 → WalkSeq db ps w l2 → l1 = l2) ∧
    (∀ w, AdvanceStep db ps w (w.advance db ps)) := by
  refine ⟨?_, advanceStep_total db ps⟩
  have main : ∀ w l1, WalkSeq db ps w l1 → ∀ l2, WalkSeq db ps w l2 → l1 = l2 := by
    intro w l1 h1
    induction h1 with
    | done w0 v1 hstep hnone =>
      intro l2 h2
      rcases h2 with ⟨_, v2, hstep2, hnone2⟩ | ⟨_, v2, k2, l2a, hstep2, hsome2, hrec2⟩
      · rfl
      · rw [advanceStep_det db ps w0 v1 v2 hstep hstep2] at hnone
        rw [hnone] at hsome2
        cases hsome2
    | step w0 v1 k l hstep hsome hrec ih =>
      intro l2 h2
      rcases h2 with ⟨_, v2, hstep2, hnone2⟩ | ⟨_, v2, k2, l2a, hstep2, hsome2, hrec2⟩
      · rw [advanceStep_det db ps w0 v1 v2 hstep hstep2] at hsome
        rw [hnone2] at hsome
        cases hsome
      · have hd : v1 = v2 := advanceStep_det db ps w0 v1 v2 hstep hstep2
        subst hd
        have hk : k = k2 := by
          rw [hsome] at hsome2
          exact Option.some_inj.mp hsome2
        rw [hk, ih l2a hrec2]
  intro w l1 l2 h1 h2
  exact main w l1 h1 l2 h2

/-- Closed witness for C7: the unique complete walk over the
cursor_rootnode_with_changesets root with no changes is empty, and both
runs agree. -/
theorem claim_C7_deterministic_walk_witness :
    ([] : List (Nibbles × Bool)) = [] :=
  (claim_C7_deterministic_walk rootNodeDb emptyPrefixSet).1
    (TrieWalker.new rootNodeDb emptyPrefixSet) [] []
    (WalkSeq.done _ _ ((claim_C7_deterministic_walk rootNodeDb emptyPrefixSet).2 _)
      (by decide))
    (WalkSeq.done _ _ ((claim_C7_deterministic_walk rootNodeDb emptyPrefixSet).2 _)
      (by decide))

/-- C2: on exactly the three stored branch nodes of the
walk_nodes_with_common_prefix test and an empty Prefix Set, a full walk from
the root yields exactly the nine paths 5,0 / 5,2 / 5,2,C,0 / 5,2,C,1 /
5,2,C,2 / 5,2,C,7 / 5,8 / 5,8,1 / 5,8,2 in that order, and the next
advance() yields None. -/
theorem claim_C2_branch_construction_example :
    (TrieWalker.new commonPrefixDb emptyPrefixSet).key = some [] ∧
    walkKeys commonPrefixDb emptyPrefixSet 20 (TrieWalker.new commonPrefixDb emptyPrefixSet) =
      [[0x5, 0x0], [0x5, 0x2], [0x5, 0x2, 0xC, 0x0], [0x5, 0x2, 0xC, 0x1],
       [0x5, 0x2, 0xC, 0x2], [0x5, 0x2, 0xC, 0x7], [0x5, 0x8], [0x5, 0x8, 0x1],
       [0x5, 0x8, 0x2]] ∧
    (advanceN commonPrefixDb emptyPrefixSet 10
        (TrieWalker.new commonPrefixDb emptyPrefixSet)).key = none := by
  decide

/-- C4: with the stored root branch of the cursor_rootnode_with_changesets
test and the prefix set containing only [0xF, 0x1], the root is not
skippable, the walk yields exactly 2 / 2,1 / 4 then None; and in general a
non-empty Prefix Set makes a root node carrying a root hash non-skippable
even though the changed path lies outside every child's subtree. -/
theorem claim_C4_changed_prefix_example :
    ((TrieWalker.new rootNodeDb ⟨[[0xF, 0x1]]⟩).key = some [] ∧
     (TrieWalker.new rootNodeDb ⟨[[0xF, 0x1]]⟩).can_skip_current_node = false ∧
     walkKeys rootNodeDb ⟨[[0xF, 0x1]]⟩ 20 (TrieWalker.new rootNodeDb ⟨[[0xF, 0x1]]⟩) =
       [[0x2], [0x2, 0x1], [0x4]] ∧
     (advanceN rootNodeDb ⟨[[0xF, 0x1]]⟩ 4 (TrieWalker.new rootNodeDb ⟨[[0xF, 0x1]]⟩)).key =
       none) ∧
    (∀ (db : TrieDb) (ps : PrefixSet) (R : BranchNodeCompact), ps.keys ≠ [] →
      seekExact db [] = some ([], R) → R.root_hash.isSome = true →
      (TrieWalker.new db ps).can_skip_current_node = false) := by
  refine ⟨by decide, ?_⟩
  intro db ps R hne hroot hhash
  have hcontains : ps.contains [] = true := (contains_nil_iff ps).mpr hne
  obtain ⟨hv, hrh⟩ := Option.isSome_iff_exists.mp hhash
  simp only [TrieWalker.new, hroot, CursorSubNode.make, hrh]
  simp [updateSkip, CursorSubNode.fullKey, hcontains]

/-- Closed witness for the general clause of C4: the concrete test inputs
satisfy its hypotheses. -/
theorem claim_C4_changed_prefix_example_witness :
    (TrieWalker.new rootNodeDb ⟨[[0xF, 0x1]]⟩).can_skip_current_node = false :=
  claim_C4_changed_prefix_example.2 rootNodeDb ⟨[[0xF, 0x1]]⟩
    ⟨0b10100, 0b00100, 0, [], some 7⟩ (by decide) (by decide) (by decide)

/-- C3: for a trie whose root branch node carries a root hash and an empty
Prefix Set, a newly constructed walker is positioned at the empty path with
can_skip_current_node true, and the first advance() immediately yields None,
visiting zero nodes of the trie. -/
theorem claim_C3_skippable_root (db : TrieDb) (R : BranchNodeCompact) (h : Nat)
    (hroot : seekExact db [] = some ([], R)) (hhash : R.root_hash = some h) :
    (TrieWalker.new db emptyPrefixSet).key = some [] ∧
    (TrieWalker.new db emptyPrefixSet).can_skip_current_node = true ∧
    ((TrieWalker.new db emptyPrefixSet).advance db emptyPrefixSet).key = none ∧
    (∀ fuel, walkKeys db emptyPrefixSet fuel (TrieWalker.new db emptyPrefixSet) = []) := by
  have hw : TrieWalker.new db emptyPrefixSet =
      { stack := [⟨[], some R, -1⟩], can_skip_current_node := true } := by
    simp only [TrieWalker.new, hroot, CursorSubNode.make, hhash]
    simp [updateSkip, CursorSubNode.fullKey, CursorSubNode.hashFlag, hhash,
      PrefixSet.contains, emptyPrefixSet]
  have hadv : (TrieWalker.new db emptyPrefixSet).advance db emptyPrefixSet =
      { stack := [], can_skip_current_node := false } := by
    rw [hw]
    simp [TrieWalker.advance, moveToNextSiblingStack, updateSkip]
  refine ⟨by rw [hw]; simp [TrieWalker.key, CursorSubNode.fullKey], by rw [hw], ?_, ?_⟩
  · rw [hadv]; rfl
  · intro fuel
    cases fuel with
    | zero => rfl
    | succ n => simp [walkKeys, hadv, TrieWalker.key]

/-- Closed witness for C3: the stored root of the
cursor_rootnode_with_changesets test satisfies its hypotheses. -/
theorem claim_C3_skippable_root_witness :
    (TrieWalker.new rootNodeDb emptyPrefixSet).can_skip_current_node = true ∧
    ((TrieWalker.new rootNodeDb emptyPrefixSet).advance rootNodeDb emptyPrefixSet).key =
      none :=
  ⟨(claim_C3_skippable_root rootNodeDb ⟨0b10100, 0b00100, 0, [], some 7⟩ 7
      (by decide) rfl).2.1,
   (claim_C3_skippable_root rootNodeDb ⟨0b10100, 0b00100, 0, [], some 7⟩ 7
      (by decide) rfl).2.2.1⟩

/-- C8: the empty (default) Prefix Set answers "no overlap" for every
prefix, and for any prefix set the root path is reported as containing
changes exactly when the set has entries. -/
theorem claim_C8_empty_prefix_set_contains :
    (∀ p : Nibbles, (PrefixSet.mk []).contains p = false) ∧
    (∀ ps : PrefixSet, ps.contains [] = true ↔ ps.keys ≠ []) := by
  refine ⟨?_, contains_nil_iff⟩
  intro p
  simp [PrefixSet.contains]

end RethTrie

namespace RethGenesis

/-- JSON values: the model of serde_json::Value manipulated by
OptimismGenesis::deserialize (optimism_genesis.rs, lines 55-75). -/
inductive Json where
  | null
  | bool (b : Bool)
  | num (n : Int)
  | str (s : String)
  | arr (elems : List Json)
  | obj (fields : List (String × Json))
deriving Repr

/-- serde_json Value::get on a string key: a field lookup that succeeds only
on objects. -/
def Json.get (v : Json) (key : String) : Option Json :=
  match v with
  | .obj fields => (fields.find? (fun f => f.1 == key)).map (fun f => f.2)
  | _ => none

/-- serde_json Value::as_object: the field list of an object value. -/
def Json.asObject (v : Json) : Option (List (String × Json)) :=
  match v with
  | .obj fields => some fields
  | _ => none

/-- The OptimismObject struct (optimism_genesis.rs, lines 42-53). -/
structure OptimismObject where
  eip1559_elasticity : Nat
  eip1559_denominator : Nat
  eip1559_denominator_canyon : Nat
deriving Repr, DecidableEq

/-- The OptimismConfig struct (optimism_genesis.rs, lines 18-39). -/
structure OptimismConfig where
  bedrock_block : Option Nat
  regolith_timestamp : Option Nat
  ecotone_timestamp : Option Nat
  canyon_timestamp : Option Nat
  optimism : Option OptimismObject
deriving Repr, DecidableEq

/-- The OptimismGenesis struct (optimism_genesis.rs, lines 8-15).  The
wrapped Eth genesis type alloy_genesis::Genesis is an external collaborator
and is kept abstract as the type parameter G. -/
structure OptimismGenesis (G : Type) where
  eth_genesis : G
  optimism_config : OptimismConfig

/-- Embedding of OptimismGenesis::deserialize (optimism_genesis.rs, lines
55-75): look up the "config" field of the raw value, require it to be an
object, then parse the whole raw value as the Eth Genesis and the config
object as the OptimismConfig.  genesisDe and configDe stand for the external
Genesis::deserialize and the serde-derived OptimismConfig deserializer. -/
def OptimismGenesis.deserialize {G : Type}
    (genesisDe : Json → Except String G)
    (configDe : Json → Except String OptimismConfig)
    (raw : Json) : Except String (OptimismGenesis G) :=
  match raw.get "config" with
  | none => .error "config field missing"
  | some cfg =>
    match cfg.asObject with
    | none => .error "config should be an object"
    | some fields =>
      match genesisDe raw with
      | .error e => .error e
      | .ok eth_genesis =>
        match configDe (Json.obj fields) with
        | .error e => .error e
        | .ok optimism_config => .ok ⟨eth_genesis, optimism_config⟩

/-- C9: deserializing an OptimismGenesis fails whenever the input has no
"config" field or its "config" field is not a JSON object; on success the
whole input parsed as the wrapped Eth Genesis and the config object parsed
as the OptimismConfig are what the result wraps. -/
theorem claim_C9_optimism_genesis_deserialize {G : Type}
    (genesisDe : Json → Except String G)
    (configDe : Json → Except String OptimismConfig) (raw : Json) :
    (raw.get "config" = none →
      OptimismGenesis.deserialize genesisDe configDe raw = .error "config field missing") ∧
    (∀ cfg, raw.get "config" = some cfg → cfg.asObject = none →
      OptimismGenesis.deserialize genesisDe configDe raw =
        .error "config should be an object") ∧
    (∀ og : OptimismGenesis G,
      OptimismGenesis.deserialize genesisDe configDe raw = .ok og →
      ∃ fields, raw.get "config" = some (Json.obj fields) ∧
        genesisDe raw = .ok og.eth_genesis ∧
        configDe (Json.obj fields) = .ok og.optimism_config) := by
  refine ⟨?_, ?_, ?_⟩
  · intro hnone
    simp [OptimismGenesis.deserialize, hnone]
  · intro cfg hsome hno
    simp [OptimismGenesis.deserialize, hsome, hno]
  · intro og hok
    unfold OptimismGenesis.deserialize at hok
    split at hok
    · exact absurd hok (by simp)
    rename_i cfg hget
    split at hok
    · exact absurd hok (by simp)
    rename_i fields hobj
    split at hok
    · exact absurd hok (by simp)
    rename_i g hg
    split at hok
    · exact absurd hok (by simp)
    rename_i c hc
    have hcfg : cfg = Json.obj fields := by
      cases cfg <;> simp [Json.asObject] at hobj
      rw [hobj]
    have hog : og = ⟨g, c⟩ := by
      injection hok with h
      rw [← h]
    refine ⟨fields, by rw [hget, hcfg], ?_, ?_⟩
    · rw [hog]; exact hg
    · rw [hog]; exact hc

/-- Closed witness for C9: a concrete input with a config object, trivial
collaborator parsers. -/
theorem claim_C9_optimism_genesis_deserialize_witness :
    (Json.null.get "config" = none →
      OptimismGenesis.deserialize (G := Unit) (fun _ => .ok ())
        (fun _ => .ok ⟨none, none, none, none, none⟩) Json.null =
        .error "config field missing") ∧
    Json.null.get "config" = none :=
  ⟨(claim_C9_optimism_genesis_deserialize (G := Unit) (fun _ => .ok ())
      (fun _ => .ok ⟨none, none, none, none, none⟩) Json.null).1, rfl⟩

/-- The four Optimism hardforks inserted by the ChainSpec conversion; every
other variant of the external reth_primitives::Hardfork enum is collapsed
into the abstract constructor. -/
inductive Hardfork where
  | Bedrock
  | Regolith
  | Ecotone
  | Canyon
  | other (name : String)
deriving Repr, DecidableEq

/-- Modelled from the spec: chain-configuration parsing is an external
collaborator (spec section 1, out of scope), so fork activation conditions
(reth_primitives::ForkCondition) are modelled with just the constructors the
conversion in optimism_genesis.rs uses plus an opaque remainder. -/
inductive ForkCondition where
  | Block (block : Nat)
  | Timestamp (timestamp : Nat)
  | otherCondition
deriving Repr, DecidableEq

/-- Modelled from the spec: reth_primitives::ChainSpec is an external
collaborator (spec section 1); it is modelled as its hardfork map (with
BTreeMap insert semantics) together with an opaque remainder holding every
other field derived from the Eth genesis. -/
structure ChainSpec (Rest : Type) where
  hardforks : Hardfork → Option ForkCondition
  rest : Rest

/-- BTreeMap::insert on the hardfork map of a ChainSpec. -/
def ChainSpec.insertFork {Rest : Type} (spec : ChainSpec Rest) (h : Hardfork)
    (c : ForkCondition) : ChainSpec Rest :=
  { spec with hardforks := fun h2 => if h2 = h then some c else spec.hardforks h2 }

/-- Embedding of the From OptimismGenesis for ChainSpec conversion
(optimism_genesis.rs, lines 77-96): convert the wrapped Eth genesis (the
external Into, kept abstract as ethInto), then insert Bedrock at a Block
condition and Regolith, Ecotone and Canyon at Timestamp conditions for each
config field that is Some. -/
def optimismGenesisIntoChainSpec {G Rest : Type} (ethInto : G → ChainSpec Rest)
    (og : OptimismGenesis G) : ChainSpec Rest :=
  let spec0 := ethInto og.eth_genesis
  let spec1 := match og.optimism_config.bedrock_block with
    | some block => spec0.insertFork .Bedrock (.Block block)
    | none => spec0
  let spec2 := match og.optimism_config.regolith_timestamp with
    | some ts => spec1.insertFork .Regolith (.Timestamp ts)
    | none => spec1
  let spec3 := match og.optimism_config.ecotone_timestamp with
    | some ts => spec2.insertFork .Ecotone (.Timestamp ts)
    | none => spec2
  match og.optimism_config.canyon_timestamp with
  | some ts => spec3.insertFork .Canyon (.Timestamp ts)
  | none => spec3

/-- C10: converting an OptimismGenesis into a ChainSpec inserts Bedrock with
a Block condition and Regolith, Ecotone, Canyon with Timestamp conditions
exactly when the corresponding config field is Some, and leaves the
ChainSpec derived from the wrapped Eth genesis otherwise unchanged: a None
field inserts nothing, every other hardfork entry and every non-hardfork
field is untouched. -/
theorem claim_C10_optimism_genesis_into_chain_spec {G Rest : Type}
    (ethInto : G → ChainSpec Rest) (og : OptimismGenesis G) :
    ((optimismGenesisIntoChainSpec ethInto og).hardforks .Bedrock =
      match og.optimism_config.bedrock_block with
      | some b => some (.Block b)
      | none => (ethInto og.eth_genesis).hardforks .Bedrock) ∧
    ((optimismGenesisIntoChainSpec ethInto og).hardforks .Regolith =
      match og.optimism_config.regolith_timestamp with
      | some t => some (.Timestamp t)
      | none => (ethInto og.eth_genesis).hardforks .Regolith) ∧
    ((optimismGenesisIntoChainSpec ethInto og).hardforks .Ecotone =
      match og.optimism_config.ecotone_timestamp with
      | some t => some (.Timestamp t)
      | none => (ethInto og.eth_genesis).hardforks .Ecotone) ∧
    ((optimismGenesisIntoChainSpec ethInto og).hardforks .Canyon =
      match og.optimism_config.canyon_timestamp with
      | some t => some (.Timestamp t)
      | none => (ethInto og.eth_genesis).hardforks .Canyon) ∧
    (∀ h : Hardfork, h ≠ .Bedrock → h ≠ .Regolith → h ≠ .Ecotone → h ≠ .Canyon →
      (optimismGenesisIntoChainSpec ethInto og).hardforks h =
        (ethInto og.eth_genesis).hardforks h) ∧
    (optimismGenesisIntoChainSpec ethInto og).rest = (ethInto og.eth_genesis).rest := by
  unfold optimismGenesisIntoChainSpec
  cases hb : og.optimism_config.bedrock_block <;>
    cases hr : og.optimism_config.regolith_timestamp <;>
      cases he : og.optimism_config.ecotone_timestamp <;>
        cases hc : og.optimism_config.canyon_timestamp <;>
          exact ⟨by simp [ChainSpec.insertFork], by simp [ChainSpec.insertFork],
            by simp [ChainSpec.insertFork], by simp [ChainSpec.insertFork],
            fun h h1 h2 h3 h4 => by simp [ChainSpec.insertFork, h1, h2, h3, h4],
            by simp [ChainSpec.insertFork]⟩

/-- Closed witness for C10: on the concrete config of the
optimism_genesis_into_chainspec test (all four fields Some), an unrelated
hardfork entry of the base ChainSpec is untouched. -/
theorem claim_C10_optimism_genesis_into_chain_spec_witness :
    (@optimismGenesisIntoChainSpec Unit Unit
        (fun _ => ⟨fun _ => none, ()⟩)
        ⟨(), ⟨some 1, some 2, some 3, some 4, none⟩⟩).hardforks (.other "Shanghai") =
      none :=
  (claim_C10_optimism_genesis_into_chain_spec (fun _ => ⟨fun _ => none, ()⟩)
      ⟨(), ⟨some 1, some 2, some 3, some 4, none⟩⟩).2.2.2.2.1 (.other "Shanghai")
    (by decide) (by decide) (by decide) (by decide)

end RethGenesis

